/-
Verification of the layered configuration model of the `confique` repository.

The definitions below are shallow embeddings of:
- the error type (`src/error.rs`, `ErrorInner`),
- the code generated by the derive macro for the layer ("partial") type of a
  configuration struct (`macro/src/gen/mod.rs`): `empty`, `default_values`,
  `with_fallback`, `is_complete`, and the `Config::from_partial`/`from_layer`
  conversion,
- the helper functions of `src/internal.rs`
  (`unwrap_or_missing_value_err`, `map_err_prefix_path`,
  `from_env_with_deserializer`, `from_env_with_parser`),
- the env-string boolean deserializer (`src/env/mod.rs`),
- numeric-width inference for default literals (`macro/src/gen/meta.rs`),
- file loading (`src/file.rs`) and `Config::from_file` (`src/lib.rs`),
- the template walk (`src/template.rs`) and the TOML formatter
  (`src/toml.rs`).

A configuration struct is modelled as a `Schema` (static, per-type data:
field names, optionality, defaults, env keys, per-leaf deserializers and
the optional struct-level validator).  A value of the generated layer type
is a `Layer`: one `Option` per leaf, nested layers fully present.  The
concrete configuration value produced by the conversion is a `Value`.
Leaf values are modelled as `Nat` (their exact type is irrelevant to the
merge/completeness logic).
-/
import Mathlib

/-- Stand-in for an arbitrary leaf field type. -/
abbrev Val := Nat

/-- Mirror of `ErrorInner` from `src/error.rs` (payloads reduced to the
parts the logic inspects). -/
inductive ConfErr where
| missingValue (path : String)
| io (path : Option String)
| deserialization (src : Option String) (msg : String)
| envNotUnicode (field : String) (key : String)
| envDeserialization (field : String) (key : String) (msg : String)
| envParseError (field : String) (key : String)
| unsupportedFileFormat (path : String)
| missingFileExtension (path : String)
| missingRequiredFile (path : String)
| validation (msg : String)
deriving DecidableEq, Repr

mutual
/-- A value of the generated layer ("partial") type: one struct with one
member per field. -/
inductive Layer where
| mk (fields : LayerFields)
inductive LayerFields where
| nil
| cons (f : LayerField) (rest : LayerFields)
/-- A layer member: `Option<T>` for a leaf, a nested layer for a nested
field. -/
inductive LayerField where
| leaf (v : Option Val)
| nested (l : Layer)
end

mutual
/-- The concrete configuration value built by `Config::from_partial`. -/
inductive Value where
| mk (fields : ValueFields)
inductive ValueFields where
| nil
| cons (f : ValueField) (rest : ValueFields)
/-- A concrete member: required leaves hold a value, optional leaves hold
`Option<T>`, nested fields hold the nested concrete config. -/
inductive ValueField where
| leaf (v : Val)
| optLeaf (v : Option Val)
| nested (v : Value)
end

mutual
/-- Static description of one configuration struct, as consumed by the
derive macro (`macro/src/ir.rs` + `macro/src/gen/mod.rs`): field list in
declaration order plus the optional struct-level validator
(`#[config(validate = ...)]`). -/
inductive Schema where
| mk (name : String) (validate : Option (Value → Except String Unit)) (fields : SchemaFields)
inductive SchemaFields where
| nil
| cons (f : SchemaField) (rest : SchemaFields)
/-- One field: a leaf (`optional` is true iff the declared type is
`Option<_>`; `dflt` is the `#[config(default = ...)]` value; `env` the
`#[config(env = ...)]` key; `parse` the leaf deserializer, including any
attached field validator) or a nested configuration. -/
inductive SchemaField where
| leaf (name : String) (optional : Bool) (dflt : Option Val) (env : Option String)
       (parse : String → Except String Val)
| nested (name : String) (s : Schema)
end

/-- Mirror of Rust `Option::or`, used by the generated `with_fallback`. -/
def optOr (a b : Option Val) : Option Val :=
  match a with
  | some v => some v
  | none => b

mutual
/-- Generated `Partial::with_fallback` (`macro/src/gen/mod.rs` lines
146-150): field-wise combination, `self` wins. -/
def Layer.with_fallback : Layer → Layer → Layer
| .mk fs, .mk gs => .mk (LayerFields.with_fallback fs gs)
def LayerFields.with_fallback : LayerFields → LayerFields → LayerFields
| .nil, _ => .nil
| .cons f fs, .nil => .cons f fs
| .cons f fs, .cons g gs => .cons (LayerField.with_fallback f g) (LayerFields.with_fallback fs gs)
/-- Per-field fallback: `self.field.or(fallback.field)` for leaves (line
334), recursive `with_fallback` for nested fields (lines 207-209).  The
mismatched-shape cases cannot arise between two values of one generated
layer type; they default to `self`. -/
def LayerField.with_fallback : LayerField → LayerField → LayerField
| .leaf v, .leaf w => .leaf (optOr v w)
| .nested a, .nested b => .nested (Layer.with_fallback a b)
| .leaf v, .nested _ => .leaf v
| .nested a, .leaf _ => .nested a
end

mutual
/-- Generated `Partial::empty` (lines 128-132): every leaf `None`, nested
fields recursively empty. -/
def Schema.empty : Schema → Layer
| .mk _ _ sfs => .mk (SchemaFields.empty sfs)
def SchemaFields.empty : SchemaFields → LayerFields
| .nil => .nil
| .cons sf rest => .cons (SchemaField.empty sf) (SchemaFields.empty rest)
def SchemaField.empty : SchemaField → LayerField
| .leaf _ _ _ _ _ => .leaf none
| .nested _ s => .nested (Schema.empty s)
end

mutual
/-- Generated `Partial::default_values` (lines 341-354): a required leaf
with a declared default gets `Some(default)`, every other leaf `None`,
nested fields recurse. -/
def Schema.default_values : Schema → Layer
| .mk _ _ sfs => .mk (SchemaFields.default_values sfs)
def SchemaFields.default_values : SchemaFields → LayerFields
| .nil => .nil
| .cons sf rest => .cons (SchemaField.default_values sf) (SchemaFields.default_values rest)
def SchemaField.default_values : SchemaField → LayerField
| .leaf _ false (some d) _ _ => .leaf (some d)
| .leaf _ _ _ _ _ => .leaf none
| .nested _ s => .nested (Schema.default_values s)
end

mutual
/-- Generated `Partial::is_complete` (lines 156-158, 211, 336-338): the
conjunction of `self.field.is_some()` over every *non-optional* leaf
(`LeafKind::Required`, i.e. the declared type is not `Option<_>` —
whether or not the leaf has a default) and `is_complete` of every nested
child. -/
def Schema.is_complete : Schema → Layer → Bool
| .mk _ _ sfs, .mk lfs => SchemaFields.is_complete sfs lfs
def SchemaFields.is_complete : SchemaFields → LayerFields → Bool
| .nil, .nil => true
| .cons sf sfs, .cons lf lfs => SchemaField.is_complete sf lf && SchemaFields.is_complete sfs lfs
| _, _ => false
def SchemaField.is_complete : SchemaField → LayerField → Bool
| .leaf _ optional _ _ _, .leaf v => optional || v.isSome
| .nested _ s, .nested l => Schema.is_complete s l
| _, _ => false
end

mutual
/-- Completeness as worded by the spec ("true iff every *required* leaf
(no default, not declared optional) is Some, and every nested child
is_complete"): leaves with a declared default do not gate completeness.
This definition follows the spec's words and exists only to be compared
with `Schema.is_complete`, which is translated from the generated code. -/
def Schema.spec_is_complete : Schema → Layer → Bool
| .mk _ _ sfs, .mk lfs => SchemaFields.spec_is_complete sfs lfs
def SchemaFields.spec_is_complete : SchemaFields → LayerFields → Bool
| .nil, .nil => true
| .cons sf sfs, .cons lf lfs =>
    SchemaField.spec_is_complete sf lf && SchemaFields.spec_is_complete sfs lfs
| _, _ => false
def SchemaField.spec_is_complete : SchemaField → LayerField → Bool
| .leaf _ optional dflt _ _, .leaf v => optional || dflt.isSome || v.isSome
| .nested _ s, .nested l => Schema.spec_is_complete s l
| _, _ => false
end

mutual
/-- `matches s l` says the layer value `l` has the shape of the layer type
generated for schema `s` (one member per field, leaves where `s` has
leaves, nested layers where `s` has nested fields). -/
def Schema.matches : Schema → Layer → Bool
| .mk _ _ sfs, .mk lfs => SchemaFields.matches sfs lfs
def SchemaFields.matches : SchemaFields → LayerFields → Bool
| .nil, .nil => true
| .cons sf sfs, .cons lf lfs => SchemaField.matches sf lf && SchemaFields.matches sfs lfs
| _, _ => false
def SchemaField.matches : SchemaField → LayerField → Bool
| .leaf _ _ _ _ _, .leaf _ => true
| .nested _ s, .nested l => Schema.matches s l
| _, _ => false
end

mutual
/-- True iff neither this struct nor any nested struct declares a
struct-level validator. -/
def Schema.noValidators : Schema → Bool
| .mk _ validate sfs => validate.isNone && SchemaFields.noValidators sfs
def SchemaFields.noValidators : SchemaFields → Bool
| .nil => true
| .cons sf rest => SchemaField.noValidators sf && SchemaFields.noValidators rest
def SchemaField.noValidators : SchemaField → Bool
| .leaf _ _ _ _ _ => true
| .nested _ s => Schema.noValidators s
end

mutual
/-- True iff, recursively, every non-optional leaf has a declared default. -/
def Schema.reqHaveDefaults : Schema → Bool
| .mk _ _ sfs => SchemaFields.reqHaveDefaults sfs
def SchemaFields.reqHaveDefaults : SchemaFields → Bool
| .nil => true
| .cons sf rest => SchemaField.reqHaveDefaults sf && SchemaFields.reqHaveDefaults rest
def SchemaField.reqHaveDefaults : SchemaField → Bool
| .leaf _ optional dflt _ _ => optional || dflt.isSome
| .nested _ s => Schema.reqHaveDefaults s
end

/-- Mirror of `internal::unwrap_or_missing_value_err` (`src/internal.rs`
lines 24-29). -/
def unwrap_or_missing_value_err (value : Option Val) (path : String) : Except ConfErr Val :=
  match value with
  | some v => .ok v
  | none => .error (.missingValue path)

/-- Mirror of `internal::map_err_prefix_path` (`src/internal.rs` lines
31-39): only a `MissingValue` error gets the field name dot-prepended to
its path; every other error is returned unchanged. -/
def map_err_prefix_path (res : Except ConfErr α) (pre : String) : Except ConfErr α :=
  match res with
  | .error e =>
    match e with
    | .missingValue path => .error (.missingValue (pre ++ "." ++ path))
    | _ => .error e
  | .ok v => .ok v

mutual
/-- Generated `Config::from_partial` (named `from_layer` in
`src/lib.rs`), from `gen_config_impl` in `macro/src/gen/mod.rs` lines
22-74: build each field in declaration order (errors short-circuit),
then run the struct-level validator.

The body of `internal::validate_struct` is not part of the sources;
modelled from the spec §4.4/§7: a struct-validator failure aborts the
conversion with `Error::Validation`. -/
def Config.from_layer : Schema → Layer → Except ConfErr Value
| .mk _ validate sfs, .mk lfs =>
  match SchemaFields.from_layer sfs lfs with
  | .error e => .error e
  | .ok vfs =>
    match validate with
    | none => .ok (.mk vfs)
    | some f =>
      match f (.mk vfs) with
      | .ok _ => .ok (.mk vfs)
      | .error msg => .error (.validation msg)
def SchemaFields.from_layer : SchemaFields → LayerFields → Except ConfErr ValueFields
| .nil, .nil => .ok .nil
| .cons sf sfs, .cons lf lfs =>
  match SchemaField.from_layer sf lf with
  | .error e => .error e
  | .ok vf =>
    match SchemaFields.from_layer sfs lfs with
    | .error e => .error e
    | .ok vfs => .ok (.cons vf vfs)
| _, _ => .error (.missingValue "<shape mismatch>")
/-- Field conversion: required leaf via `unwrap_or_missing_value_err`
(path is the field name), optional leaf passes through, nested field
recurses with `map_err_prefix_path`.  Shape mismatches cannot arise for a
value of the generated layer type. -/
def SchemaField.from_layer : SchemaField → LayerField → Except ConfErr ValueField
| .leaf name false _ _ _, .leaf v =>
  (unwrap_or_missing_value_err v name).map .leaf
| .leaf _ true _ _ _, .leaf v => .ok (.optLeaf v)
| .nested name s, .nested l =>
  (map_err_prefix_path (Config.from_layer s l) name).map .nested
| .leaf name _ _ _ _, .nested _ => .error (.missingValue name)
| .nested name _, .leaf _ => .error (.missingValue name)
end

/-- Result of `std::env::var(key)` as seen by the `get_env_var!` macro in
`src/internal.rs` lines 49-63. -/
inductive EnvVarResult where
| notPresent
| notUnicode
| present (s : String)
deriving DecidableEq, Repr

/-- Mirror of `internal::from_env_with_deserializer` (`src/internal.rs`
lines 92-109), with the result of the environment lookup passed in as
`var`.  `deserialize` stands for the generated deserialization function of
the leaf, which includes any attached field validator. -/
def from_env_with_deserializer (key field : String) (var : EnvVarResult)
    (deserialize : String → Except String Val) : Except ConfErr (Option Val) :=
  match var with
  | .notPresent => .ok none
  | .notUnicode => .error (.envNotUnicode field key)
  | .present s =>
    match deserialize s with
    | .ok v => .ok (some v)
    | .error msg =>
      if s.isEmpty then .ok none
      else .error (.envDeserialization field key msg)

/-- Mirror of `internal::from_env_with_parser` (`src/internal.rs` lines
72-90): same shape, but a failed non-empty parse yields `EnvParseError`. -/
def from_env_with_parse (key field : String) (var : EnvVarResult)
    (parse : String → Except String Val) : Except ConfErr (Option Val) :=
  match var with
  | .notPresent => .ok none
  | .notUnicode => .error (.envNotUnicode field key)
  | .present s =>
    match parse s with
    | .ok v => .ok (some v)
    | .error _ =>
      if s.isEmpty then .ok none
      else .error (.envParseError field key)

/-- ASCII lower-casing of one character, as used by Rust's
`eq_ignore_ascii_case`. -/
def asciiLower (c : Char) : Char :=
  if 'A' ≤ c ∧ c ≤ 'Z' then Char.ofNat (c.toNat + 32) else c

/-- Mirror of Rust `str::eq_ignore_ascii_case`. -/
def eq_ignore_ascii_case (a b : String) : Bool :=
  a.data.map asciiLower == b.data.map asciiLower

/-- Mirror of Rust `str::trim`: drop whitespace from both ends. -/
def rust_trim (s : String) : String :=
  ⟨((s.data.dropWhile Char.isWhitespace).reverse.dropWhile Char.isWhitespace).reverse⟩

/-- Mirror of `Deserializer::deserialize_bool` (`src/env/mod.rs` lines
84-101): trim, then `1`/`true`/`yes` (the words case-insensitively) map
to `true`, `0`/`false`/`no` to `false`, anything else errors. -/
def deserialize_bool (value : String) : Except String Bool :=
  let s := rust_trim value
  if s = "1" || eq_ignore_ascii_case s "true" || eq_ignore_ascii_case s "yes" then
    .ok true
  else if s = "0" || eq_ignore_ascii_case s "false" || eq_ignore_ascii_case s "no" then
    .ok false
  else
    .error ("invalid value for bool: '" ++ s ++ "'")

/-- Mirror of `int_type_to_variant` (`macro/src/gen/meta.rs` lines
123-139). -/
def int_type_to_variant : String → Option String
| "u8" => some "U8"
| "u16" => some "U16"
| "u32" => some "U32"
| "u64" => some "U64"
| "u128" => some "U128"
| "usize" => some "Usize"
| "i8" => some "I8"
| "i16" => some "I16"
| "i32" => some "I32"
| "i64" => some "I64"
| "i128" => some "I128"
| "isize" => some "Isize"
| _ => none

/-- Mirror of `float_type_to_variant` (`macro/src/gen/meta.rs` lines
142-148). -/
def float_type_to_variant : String → Option String
| "f32" => some "F32"
| "f64" => some "F64"
| _ => none

/-- Mirror of `infer_type` (`macro/src/gen/meta.rs` lines 156-173).
`field_ty` is the field's declared type when it is a plain single-ident
path (`path.get_ident()`), otherwise `none`. -/
def infer_type (sfx : String) (field_ty : Option String) (dflt : String)
    (map : String → Option String) : String :=
  (((map sfx).orElse (fun _ =>
      match field_ty with
      | some t => map t
      | none => none)).getD dflt)

/-- The integer arm of `match_literals!` (`macro/src/gen/meta.rs` lines
83-86): width variant for an integer default literal. -/
def int_variant_for (sfx : String) (field_ty : Option String) : String :=
  infer_type sfx field_ty "I32" int_type_to_variant

/-- The float arm of `match_literals!` (`macro/src/gen/meta.rs` lines
87-90): width variant for a float default literal. -/
def float_variant_for (sfx : String) (field_ty : Option String) : String :=
  infer_type sfx field_ty "F64" float_type_to_variant

/-- The widest signed integer width variant known to the macro
(`i128`).  This follows the spec's words ("defaulting to the widest
signed ... type if inference fails") and exists only to be compared with
the code's fallback. -/
def spec_widest_signed_int : String := "I128"

/-- Outcome of `fs::read` in `File::load` (`src/file.rs` lines 53-68). -/
inductive ReadResult where
| ok (content : String)
| notFound
| otherError
deriving Repr

/-- Mirror of `File::load` (`src/file.rs` lines 50-95) for a file of
schema `s`'s layer type: a missing file yields the empty layer, or a
`MissingRequiredFile` error when the file was marked required; any other
read failure yields `Io`; unparsable content yields `Deserialization`.
`parse` stands for the format-specific deserializer. -/
def File.load (s : Schema) (path : String) (required : Bool) (read : ReadResult)
    (parse : String → Except String Layer) : Except ConfErr Layer :=
  match read with
  | .notFound =>
    if required then .error (.missingRequiredFile path)
    else .ok (Schema.empty s)
  | .otherError => .error (.io (some path))
  | .ok content =>
    match parse content with
    | .ok l => .ok l
    | .error msg => .error (.deserialization (some ("file '" ++ path ++ "'")) msg)

/-- Mirror of `Config::from_file` (`src/lib.rs` lines 651-661): the file
is marked required exactly when the schema's default values are not
complete; the loaded layer falls back to the default values and is then
converted.  (The extension check of `File::new` is not modelled; the
format is taken as already selected.) -/
def Config.from_file (s : Schema) (path : String) (read : ReadResult)
    (parse : String → Except String Layer) : Except ConfErr Value :=
  let dv := Schema.default_values s
  let required := !(Schema.is_complete s dv)
  match File.load s path required read parse with
  | .error e => .error e
  | .ok layer => Config.from_layer s (Layer.with_fallback layer dv)

/-! ### Helper lemmas about merging -/

theorem optOr_none_right (v : Option Val) : optOr v none = v := by
  cases v <;> rfl

theorem optOr_none_left (v : Option Val) : optOr none v = v := rfl

mutual
/-- Merging any layer of schema `s` with the empty layer on the right is
the identity. -/
theorem layer_wf_empty_right : ∀ (s : Schema) (l : Layer),
    Schema.matches s l = true → Layer.with_fallback l (Schema.empty s) = l
| .mk _ _ sfs, .mk lfs, h => by
  simp only [Schema.matches] at h
  simp only [Schema.empty, Layer.with_fallback]
  rw [fields_wf_empty_right sfs lfs h]
theorem fields_wf_empty_right : ∀ (sfs : SchemaFields) (lfs : LayerFields),
    SchemaFields.matches sfs lfs = true →
    LayerFields.with_fallback lfs (SchemaFields.empty sfs) = lfs
| .nil, .nil, _ => rfl
| .cons sf sfs, .cons lf lfs, h => by
  simp only [SchemaFields.matches, Bool.and_eq_true] at h
  simp only [SchemaFields.empty, LayerFields.with_fallback]
  rw [field_wf_empty_right sf lf h.1, fields_wf_empty_right sfs lfs h.2]
| .nil, .cons _ _, h => by simp [SchemaFields.matches] at h
| .cons _ _, .nil, h => by simp [SchemaFields.matches] at h
theorem field_wf_empty_right : ∀ (sf : SchemaField) (lf : LayerField),
    SchemaField.matches sf lf = true →
    LayerField.with_fallback lf (SchemaField.empty sf) = lf
| .leaf _ _ _ _ _, .leaf v, _ => by
  simp only [SchemaField.empty, LayerField.with_fallback, optOr_none_right]
| .nested _ s, .nested l, h => by
  simp only [SchemaField.matches] at h
  simp only [SchemaField.empty, LayerField.with_fallback]
  rw [layer_wf_empty_right s l h]
| .leaf _ _ _ _ _, .nested _, h => by simp [SchemaField.matches] at h
| .nested _ _, .leaf _, h => by simp [SchemaField.matches] at h
end

mutual
/-- Merging the empty layer with any layer of schema `s` on the right
gives that layer back. -/
theorem layer_wf_empty_left : ∀ (s : Schema) (l : Layer),
    Schema.matches s l = true → Layer.with_fallback (Schema.empty s) l = l
| .mk _ _ sfs, .mk lfs, h => by
  simp only [Schema.matches] at h
  simp only [Schema.empty, Layer.with_fallback]
  rw [fields_wf_empty_left sfs lfs h]
theorem fields_wf_empty_left : ∀ (sfs : SchemaFields) (lfs : LayerFields),
    SchemaFields.matches sfs lfs = true →
    LayerFields.with_fallback (SchemaFields.empty sfs) lfs = lfs
| .nil, .nil, _ => rfl
| .cons sf sfs, .cons lf lfs, h => by
  simp only [SchemaFields.matches, Bool.and_eq_true] at h
  simp only [SchemaFields.empty, LayerFields.with_fallback]
  rw [field_wf_empty_left sf lf h.1, fields_wf_empty_left sfs lfs h.2]
| .nil, .cons _ _, h => by simp [SchemaFields.matches] at h
| .cons _ _, .nil, h => by simp [SchemaFields.matches] at h
theorem field_wf_empty_left : ∀ (sf : SchemaField) (lf : LayerField),
    SchemaField.matches sf lf = true →
    LayerField.with_fallback (SchemaField.empty sf) lf = lf
| .leaf _ _ _ _ _, .leaf v, _ => by
  simp only [SchemaField.empty, LayerField.with_fallback, optOr_none_left]
| .nested _ s, .nested l, h => by
  simp only [SchemaField.matches] at h
  simp only [SchemaField.empty, LayerField.with_fallback]
  rw [layer_wf_empty_left s l h]
| .leaf _ _ _ _ _, .nested _, h => by simp [SchemaField.matches] at h
| .nested _ _, .leaf _, h => by simp [SchemaField.matches] at h
end

mutual
/-- The empty layer of a schema has that schema's shape. -/
theorem matches_empty : ∀ (s : Schema), Schema.matches s (Schema.empty s) = true
| .mk _ _ sfs => by
  simp only [Schema.empty, Schema.matches]
  exact matches_empty_fields sfs
theorem matches_empty_fields : ∀ (sfs : SchemaFields),
    SchemaFields.matches sfs (SchemaFields.empty sfs) = true
| .nil => rfl
| .cons sf rest => by
  simp only [SchemaFields.empty, SchemaFields.matches, Bool.and_eq_true]
  exact ⟨matches_empty_field sf, matches_empty_fields rest⟩
theorem matches_empty_field : ∀ (sf : SchemaField),
    SchemaField.matches sf (SchemaField.empty sf) = true
| .leaf _ _ _ _ _ => rfl
| .nested _ s => by
  simp only [SchemaField.empty, SchemaField.matches]
  exact matches_empty s
end

mutual
/-- The default-values layer of a schema has that schema's shape. -/
theorem matches_default_values : ∀ (s : Schema),
    Schema.matches s (Schema.default_values s) = true
| .mk _ _ sfs => by
  simp only [Schema.default_values, Schema.matches]
  exact matches_default_values_fields sfs
theorem matches_default_values_fields : ∀ (sfs : SchemaFields),
    SchemaFields.matches sfs (SchemaFields.default_values sfs) = true
| .nil => rfl
| .cons sf rest => by
  simp only [SchemaFields.default_values, SchemaFields.matches, Bool.and_eq_true]
  exact ⟨matches_default_values_field sf, matches_default_values_fields rest⟩
theorem matches_default_values_field : ∀ (sf : SchemaField),
    SchemaField.matches sf (SchemaField.default_values sf) = true
| .leaf _ false (some _) _ _ => rfl
| .leaf _ false none _ _ => rfl
| .leaf _ true _ _ _ => rfl
| .nested _ s => by
  simp only [SchemaField.default_values, SchemaField.matches]
  exact matches_default_values s
end

mutual
/-- Merging two layers of schema `s` yields a layer of schema `s`. -/
theorem matches_with_fallback : ∀ (s : Schema) (a b : Layer),
    Schema.matches s a = true → Schema.matches s b = true →
    Schema.matches s (Layer.with_fallback a b) = true
| .mk _ _ sfs, .mk afs, .mk bfs, ha, hb => by
  simp only [Schema.matches] at ha hb ⊢
  simp only [Layer.with_fallback]
  exact matches_with_fallback_fields sfs afs bfs ha hb
theorem matches_with_fallback_fields : ∀ (sfs : SchemaFields) (afs bfs : LayerFields),
    SchemaFields.matches sfs afs = true → SchemaFields.matches sfs bfs = true →
    SchemaFields.matches sfs (LayerFields.with_fallback afs bfs) = true
| .nil, .nil, .nil, _, _ => rfl
| .cons sf sfs, .cons af afs, .cons bf bfs, ha, hb => by
  simp only [SchemaFields.matches, Bool.and_eq_true] at ha hb
  simp only [LayerFields.with_fallback, SchemaFields.matches, Bool.and_eq_true]
  exact ⟨matches_with_fallback_field sf af bf ha.1 hb.1,
         matches_with_fallback_fields sfs afs bfs ha.2 hb.2⟩
| .nil, .cons _ _, _, ha, _ => by simp [SchemaFields.matches] at ha
| .cons _ _, .nil, _, ha, _ => by simp [SchemaFields.matches] at ha
| .cons _ _, .cons _ _, .nil, _, hb => by simp [SchemaFields.matches] at hb
theorem matches_with_fallback_field : ∀ (sf : SchemaField) (af bf : LayerField),
    SchemaField.matches sf af = true → SchemaField.matches sf bf = true →
    SchemaField.matches sf (LayerField.with_fallback af bf) = true
| .leaf _ _ _ _ _, .leaf _, .leaf _, _, _ => rfl
| .nested _ s, .nested a, .nested b, ha, hb => by
  simp only [SchemaField.matches] at ha hb
  simp only [LayerField.with_fallback, SchemaField.matches]
  exact matches_with_fallback s a b ha hb
| .leaf _ _ _ _ _, .nested _, _, ha, _ => by simp [SchemaField.matches] at ha
| .nested _ _, .leaf _, _, ha, _ => by simp [SchemaField.matches] at ha
| .leaf _ _ _ _ _, .leaf _, .nested _, _, hb => by simp [SchemaField.matches] at hb
| .nested _ _, .nested _, .leaf _, _, hb => by simp [SchemaField.matches] at hb
end

/-! ### Leaf access by path (for stating the merge-priority property) -/

mutual
/-- Reads the leaf member at an index path: `[i, j, ...]` selects field
`i` of the layer, descending into nested layers.  Returns `none` when the
path does not denote a leaf. -/
def Layer.getLeaf : Layer → List Nat → Option (Option Val)
| .mk fs, i :: p => LayerFields.getLeaf fs i p
| .mk _, [] => none
def LayerFields.getLeaf : LayerFields → Nat → List Nat → Option (Option Val)
| .nil, _, _ => none
| .cons f _, 0, p => LayerField.getLeaf f p
| .cons _ rest, n + 1, p => LayerFields.getLeaf rest n p
def LayerField.getLeaf : LayerField → List Nat → Option (Option Val)
| .leaf v, [] => some v
| .leaf _, _ :: _ => none
| .nested l, p => Layer.getLeaf l p
end

mutual
/-- On two layers of one schema, `with_fallback` acts on every leaf as
`Option::or`. -/
theorem layer_getLeaf_wf : ∀ (s : Schema) (a b : Layer),
    Schema.matches s a = true → Schema.matches s b = true →
    ∀ (p : List Nat) (va vb : Option Val),
    Layer.getLeaf a p = some va → Layer.getLeaf b p = some vb →
    Layer.getLeaf (Layer.with_fallback a b) p = some (optOr va vb)
| .mk _ _ sfs, .mk afs, .mk bfs, ha, hb, p, va, vb, hga, hgb => by
  simp only [Schema.matches] at ha hb
  match p with
  | [] =>
    simp only [Layer.getLeaf] at hga
    exact Option.noConfusion hga
  | i :: p' =>
    simp only [Layer.getLeaf] at hga hgb
    simp only [Layer.with_fallback, Layer.getLeaf]
    exact fields_getLeaf_wf sfs afs bfs ha hb i p' va vb hga hgb
theorem fields_getLeaf_wf : ∀ (sfs : SchemaFields) (afs bfs : LayerFields),
    SchemaFields.matches sfs afs = true → SchemaFields.matches sfs bfs = true →
    ∀ (i : Nat) (p : List Nat) (va vb : Option Val),
    LayerFields.getLeaf afs i p = some va → LayerFields.getLeaf bfs i p = some vb →
    LayerFields.getLeaf (LayerFields.with_fallback afs bfs) i p = some (optOr va vb)
| .nil, .nil, .nil, _, _, i, p, va, vb, hga, hgb => by
  simp only [LayerFields.getLeaf] at hga
  exact Option.noConfusion hga
| .cons sf sfs, .cons af afs, .cons bf bfs, ha, hb, i, p, va, vb, hga, hgb => by
  simp only [SchemaFields.matches, Bool.and_eq_true] at ha hb
  match i with
  | 0 =>
    simp only [LayerFields.getLeaf] at hga hgb
    simp only [LayerFields.with_fallback, LayerFields.getLeaf]
    exact field_getLeaf_wf sf af bf ha.1 hb.1 p va vb hga hgb
  | n + 1 =>
    simp only [LayerFields.getLeaf] at hga hgb
    simp only [LayerFields.with_fallback, LayerFields.getLeaf]
    exact fields_getLeaf_wf sfs afs bfs ha.2 hb.2 n p va vb hga hgb
| .nil, .cons _ _, _, ha, _, _, _, _, _, _, _ => by simp [SchemaFields.matches] at ha
| .cons _ _, .nil, _, ha, _, _, _, _, _, _, _ => by simp [SchemaFields.matches] at ha
| .cons _ _, .cons _ _, .nil, _, hb, _, _, _, _, _, _ => by simp [SchemaFields.matches] at hb
theorem field_getLeaf_wf : ∀ (sf : SchemaField) (af bf : LayerField),
    SchemaField.matches sf af = true → SchemaField.matches sf bf = true →
    ∀ (p : List Nat) (va vb : Option Val),
    LayerField.getLeaf af p = some va → LayerField.getLeaf bf p = some vb →
    LayerField.getLeaf (LayerField.with_fallback af bf) p = some (optOr va vb)
| .leaf _ _ _ _ _, .leaf x, .leaf y, _, _, p, va, vb, hga, hgb => by
  match p with
  | [] =>
    simp only [LayerField.getLeaf, Option.some.injEq] at hga hgb
    simp only [LayerField.with_fallback, LayerField.getLeaf, hga, hgb]
  | _ :: _ =>
    simp only [LayerField.getLeaf] at hga
    exact Option.noConfusion hga
| .nested _ s, .nested la, .nested lb, ha, hb, p, va, vb, hga, hgb => by
  simp only [SchemaField.matches] at ha hb
  simp only [LayerField.getLeaf] at hga hgb
  simp only [LayerField.with_fallback, LayerField.getLeaf]
  exact layer_getLeaf_wf s la lb ha hb p va vb hga hgb
| .leaf _ _ _ _ _, .nested _, _, ha, _, _, _, _, _, _ => by simp [SchemaField.matches] at ha
| .nested _ _, .leaf _, _, ha, _, _, _, _, _, _ => by simp [SchemaField.matches] at ha
| .leaf _ _ _ _ _, .leaf _, .nested _, _, hb, _, _, _, _, _ => by
  simp [SchemaField.matches] at hb
| .nested _ _, .nested _, .leaf _, _, hb, _, _, _, _, _ => by
  simp [SchemaField.matches] at hb
end

/-! ### Example schema and layers (used by concrete witnesses) -/

/-- A leaf deserializer standing in for the generated one. -/
def exParse : String → Except String Val :=
  fun s => if s = "8080" then .ok 8080 else .error "invalid"

/-- Example nested config: `struct Http { host: Option<String> }`. -/
def exHttp : Schema :=
  .mk "Http" none (.cons (.leaf "host" true none none exParse) .nil)

/-- Example config: `struct Conf { port: u16 = 8080 (env PORT), #[nested] http: Http }`. -/
def exSchema : Schema :=
  .mk "Conf" none
    (.cons (.leaf "port" false (some 8080) (some "PORT") exParse)
      (.cons (.nested "http" exHttp) .nil))

def exLayerA : Layer :=
  .mk (.cons (.leaf (some 1)) (.cons (.nested (.mk (.cons (.leaf none) .nil))) .nil))

def exLayerB : Layer :=
  .mk (.cons (.leaf none) (.cons (.nested (.mk (.cons (.leaf (some 2)) .nil))) .nil))

def exLayerC : Layer :=
  .mk (.cons (.leaf (some 3)) (.cons (.nested (.mk (.cons (.leaf (some 4)) .nil))) .nil))

/-! ### C1 -/

/-- C1: for layers A, B, C of one generated layer type,
`A.with_fallback(B).with_fallback(C)` holds, at every leaf,
`optOr vA (optOr vB vC)` — the value of the first layer in A, B, C order
that set the leaf (`optOr` is `Option::or`); and the two-layer merge acts
on every leaf as `self.field.or(fallback.field)`, recursing through
nested fields (the path `p` may descend through nested layers). -/
theorem merge_priority (s : Schema) (a b c : Layer)
    (ha : Schema.matches s a = true) (hb : Schema.matches s b = true)
    (hc : Schema.matches s c = true)
    (p : List Nat) (va vb vc : Option Val)
    (hga : Layer.getLeaf a p = some va) (hgb : Layer.getLeaf b p = some vb)
    (hgc : Layer.getLeaf c p = some vc) :
    Layer.getLeaf (Layer.with_fallback (Layer.with_fallback a b) c) p
      = some (optOr va (optOr vb vc))
    ∧ Layer.getLeaf (Layer.with_fallback a b) p = some (optOr va vb) := by
  have hab := layer_getLeaf_wf s a b ha hb p va vb hga hgb
  have hmab := matches_with_fallback s a b ha hb
  have h3 := layer_getLeaf_wf s (Layer.with_fallback a b) c hmab hc p (optOr va vb) vc hab hgc
  refine ⟨?_, hab⟩
  rw [h3]
  congr 1
  cases va <;> cases vb <;> cases vc <;> rfl

/-- Witness for C1 at a concrete schema: leaf `http.host` (path `[1, 0]`)
is unset in A and set in B and C; the merge keeps B's value. -/
theorem merge_priority_witness :
    Layer.getLeaf
      (Layer.with_fallback (Layer.with_fallback exLayerA exLayerB) exLayerC) [1, 0]
      = some (some 2) :=
  (merge_priority exSchema exLayerA exLayerB exLayerC rfl rfl rfl
    [1, 0] none (some 2) (some 4) rfl rfl rfl).1

/-! ### C6 -/

/-- C6: for every layer L of a generated layer type, merging with the
empty layer is an identity on both sides:
`L.with_fallback(empty()) = L` and `empty().with_fallback(L) = L`
(equality of whole layer trees, so this holds recursively for all nested
children). -/
theorem with_fallback_empty_identity (s : Schema) (l : Layer)
    (h : Schema.matches s l = true) :
    Layer.with_fallback l (Schema.empty s) = l
    ∧ Layer.with_fallback (Schema.empty s) l = l :=
  ⟨layer_wf_empty_right s l h, layer_wf_empty_left s l h⟩

/-- Witness for C6 at a concrete schema and layer. -/
theorem with_fallback_empty_identity_witness :
    Layer.with_fallback exLayerA (Schema.empty exSchema) = exLayerA
    ∧ Layer.with_fallback (Schema.empty exSchema) exLayerA = exLayerA :=
  with_fallback_empty_identity exSchema exLayerA rfl

/-! ### C2 -/

/-- C2: behaviour of the env loaders of `src/internal.rs` for a leaf with
an env key: absent variable gives `None`; a successfully parsed value
gives `Some v`; a failed parse of the empty string gives `None` (no
error); a failed parse of a non-empty string gives
`EnvDeserialization` (generic deserializer, which includes any attached
validator) or `EnvParseError` (custom `parse_env` function). -/
theorem from_env_cases (key field : String) (de pe : String → Except String Val)
    (s : String) (v : Val) (msg : String) :
    (from_env_with_deserializer key field .notPresent de = .ok none)
    ∧ (de s = .ok v →
        from_env_with_deserializer key field (.present s) de = .ok (some v))
    ∧ (de "" = .error msg →
        from_env_with_deserializer key field (.present "") de = .ok none)
    ∧ (s ≠ "" → de s = .error msg →
        from_env_with_deserializer key field (.present s) de
          = .error (.envDeserialization field key msg))
    ∧ (from_env_with_parse key field .notPresent pe = .ok none)
    ∧ (pe s = .ok v →
        from_env_with_parse key field (.present s) pe = .ok (some v))
    ∧ (pe "" = .error msg →
        from_env_with_parse key field (.present "") pe = .ok none)
    ∧ (s ≠ "" → pe s = .error msg →
        from_env_with_parse key field (.present s) pe
          = .error (.envParseError field key)) := by
  have hne : ∀ t : String, t ≠ "" → t.isEmpty = false := by
    intro t ht
    cases h : t.isEmpty
    · rfl
    · exact absurd ((String.isEmpty_iff t).mp h) ht
  refine ⟨rfl, fun h => ?_, fun h => ?_, fun hs h => ?_, rfl,
    fun h => ?_, fun h => ?_, fun hs h => ?_⟩
  · simp [from_env_with_deserializer, h]
  · simp [from_env_with_deserializer, h, String.isEmpty_iff]
  · simp [from_env_with_deserializer, h, hne s hs]
  · simp [from_env_with_parse, h]
  · simp [from_env_with_parse, h, String.isEmpty_iff]
  · simp [from_env_with_parse, h, hne s hs]

/-- Witness for C2: the example deserializer `exParse` accepts `"8080"`
and rejects everything else, so all four behaviours are exercised. -/
theorem from_env_cases_witness :
    from_env_with_deserializer "PORT" "Conf::port" (.present "8080") exParse = .ok (some 8080)
    ∧ from_env_with_deserializer "PORT" "Conf::port" (.present "") exParse = .ok none
    ∧ from_env_with_deserializer "PORT" "Conf::port" (.present "x") exParse
        = .error (.envDeserialization "Conf::port" "PORT" "invalid")
    ∧ from_env_with_parse "PORT" "Conf::port" .notPresent exParse = .ok none :=
  ⟨(from_env_cases "PORT" "Conf::port" exParse exParse "8080" 8080 "invalid").2.1 rfl,
   (from_env_cases "PORT" "Conf::port" exParse exParse "" 8080 "invalid").2.2.1 rfl,
   (from_env_cases "PORT" "Conf::port" exParse exParse "x" 8080 "invalid").2.2.2.1
     (by decide) rfl,
   (from_env_cases "PORT" "Conf::port" exParse exParse "x" 8080 "invalid").2.2.2.2.1⟩

/-! ### C7 -/

/-- C7: loading a file source whose file does not exist returns the
empty layer when the file is not marked required, a
`MissingRequiredFile` error when it is, and any other read failure
yields an `Io` error. -/
theorem file_load_missing_file (s : Schema) (path : String)
    (parse : String → Except String Layer) :
    File.load s path true .notFound parse = .error (.missingRequiredFile path)
    ∧ File.load s path false .notFound parse = .ok (Schema.empty s)
    ∧ (∀ req : Bool, File.load s path req .otherError parse = .error (.io (some path))) :=
  ⟨rfl, rfl, fun _ => rfl⟩

/-! ### C5 -/

/-- Counterexample for C5: an integer default literal with no type suffix
on a field whose declared type names no known numeric type is stored with
variant `I32`, not the widest signed integer type `I128` the claim
names. -/
theorem int_default_width_counterexample :
    int_variant_for "" none = "I32"
    ∧ spec_widest_signed_int = "I128"
    ∧ ¬ int_variant_for "" none = spec_widest_signed_int :=
  ⟨rfl, rfl, by decide⟩

/-- C5 (amended): when neither the literal suffix nor the declared field
type names a known numeric type, the stored literal's width variant
defaults to `I32` for integers (not the widest signed type) and to `F64`
(double precision) for floats. -/
theorem infer_default_widths (sfx : String) (fty : Option String) :
    (int_type_to_variant sfx = none → fty.bind int_type_to_variant = none →
      int_variant_for sfx fty = "I32")
    ∧ (float_type_to_variant sfx = none → fty.bind float_type_to_variant = none →
      float_variant_for sfx fty = "F64") := by
  constructor
  · intro h1 h2
    cases fty with
    | none => simp [int_variant_for, infer_type, h1]
    | some t =>
      simp only [Option.some_bind] at h2
      simp [int_variant_for, infer_type, h1, h2]
  · intro h1 h2
    cases fty with
    | none => simp [float_variant_for, infer_type, h1]
    | some t =>
      simp only [Option.some_bind] at h2
      simp [float_variant_for, infer_type, h1, h2]

/-- Witness for C5 (amended): unsuffixed literal on a field of unknown
type. -/
theorem infer_default_widths_witness :
    int_variant_for "" (some "MyPort") = "I32"
    ∧ float_variant_for "" (some "MyRate") = "F64" :=
  ⟨(infer_default_widths "" (some "MyPort")).1 rfl rfl,
   (infer_default_widths "" (some "MyRate")).2 rfl rfl⟩

/-! ### C8 -/

theorem eq_ci_length {a b : String} (h : eq_ignore_ascii_case a b = true) :
    a.data.length = b.data.length := by
  simp only [eq_ignore_ascii_case, beq_iff_eq] at h
  have := congrArg List.length h
  simpa using this

/-- The truthy and falsy synonym sets of `deserialize_bool` are disjoint. -/
theorem bool_conds_disjoint (t : String)
    (h1 : t = "1" ∨ eq_ignore_ascii_case t "true" = true
      ∨ eq_ignore_ascii_case t "yes" = true)
    (h2 : t = "0" ∨ eq_ignore_ascii_case t "false" = true
      ∨ eq_ignore_ascii_case t "no" = true) : False := by
  rcases h1 with h1 | h1 | h1 <;> rcases h2 with h2 | h2 | h2
  · rw [h1] at h2; exact absurd h2 (by decide)
  · rw [h1] at h2; exact absurd h2 (by decide)
  · rw [h1] at h2; exact absurd h2 (by decide)
  · rw [h2] at h1; exact absurd h1 (by decide)
  · have l1 := eq_ci_length h1; have l2 := eq_ci_length h2
    rw [l1] at l2; exact absurd l2 (by decide)
  · have l1 := eq_ci_length h1; have l2 := eq_ci_length h2
    rw [l1] at l2; exact absurd l2 (by decide)
  · rw [h2] at h1; exact absurd h1 (by decide)
  · have l1 := eq_ci_length h1; have l2 := eq_ci_length h2
    rw [l1] at l2; exact absurd l2 (by decide)
  · have l1 := eq_ci_length h1; have l2 := eq_ci_length h2
    rw [l1] at l2; exact absurd l2 (by decide)

/-- C8: deserializing a boolean from an env string first trims
whitespace; the trimmed string gives `true` exactly when it is `1` or an
ASCII-case-insensitive match of `true`/`yes`, gives `false` exactly when
it is `0` or a case-insensitive match of `false`/`no`, and every other
string is a parse error. -/
theorem deserialize_bool_spec (s : String) :
    (deserialize_bool s = .ok true ↔
      (rust_trim s = "1" ∨ eq_ignore_ascii_case (rust_trim s) "true" = true
        ∨ eq_ignore_ascii_case (rust_trim s) "yes" = true))
    ∧ (deserialize_bool s = .ok false ↔
      (rust_trim s = "0" ∨ eq_ignore_ascii_case (rust_trim s) "false" = true
        ∨ eq_ignore_ascii_case (rust_trim s) "no" = true))
    ∧ ((∃ e, deserialize_bool s = .error e) ↔
      (¬ (rust_trim s = "1" ∨ eq_ignore_ascii_case (rust_trim s) "true" = true
          ∨ eq_ignore_ascii_case (rust_trim s) "yes" = true)
        ∧ ¬ (rust_trim s = "0" ∨ eq_ignore_ascii_case (rust_trim s) "false" = true
          ∨ eq_ignore_ascii_case (rust_trim s) "no" = true))) := by
  simp only [deserialize_bool]
  split_ifs with hT hF
  · simp only [Bool.or_eq_true, decide_eq_true_eq] at hT
    rw [or_assoc] at hT
    refine ⟨iff_of_true rfl hT, ?_, ?_⟩
    · exact iff_of_false (by simp) (fun hB => bool_conds_disjoint _ hT hB)
    · exact iff_of_false (by simp) (fun h => h.1 hT)
  · simp only [Bool.or_eq_true, decide_eq_true_eq] at hF
    rw [or_assoc] at hF
    simp only [Bool.or_eq_true, decide_eq_true_eq, not_or] at hT
    have hnA : ¬ (rust_trim s = "1" ∨ eq_ignore_ascii_case (rust_trim s) "true" = true
        ∨ eq_ignore_ascii_case (rust_trim s) "yes" = true) := by
      rintro (h | h | h)
      · exact hT.1.1 h
      · exact hT.1.2 h
      · exact hT.2 h
    refine ⟨iff_of_false (by simp) hnA, iff_of_true rfl hF, ?_⟩
    exact iff_of_false (by simp) (fun h => h.2 hF)
  · simp only [Bool.or_eq_true, decide_eq_true_eq, not_or] at hT hF
    have hnA : ¬ (rust_trim s = "1" ∨ eq_ignore_ascii_case (rust_trim s) "true" = true
        ∨ eq_ignore_ascii_case (rust_trim s) "yes" = true) := by
      rintro (h | h | h)
      · exact hT.1.1 h
      · exact hT.1.2 h
      · exact hT.2 h
    have hnB : ¬ (rust_trim s = "0" ∨ eq_ignore_ascii_case (rust_trim s) "false" = true
        ∨ eq_ignore_ascii_case (rust_trim s) "no" = true) := by
      rintro (h | h | h)
      · exact hF.1.1 h
      · exact hF.1.2 h
      · exact hF.2 h
    exact ⟨iff_of_false (by simp) hnA, iff_of_false (by simp) hnB,
      iff_of_true ⟨_, rfl⟩ ⟨hnA, hnB⟩⟩

/-! ### Helper lemmas about conversion errors -/

/-- Holds when a conversion result is not a `MissingValue` error. -/
def notMissing {α : Type} : Except ConfErr α → Prop
| .error (.missingValue _) => False
| _ => True

theorem map_err_prefix_path_missing (p pre : String) :
    map_err_prefix_path (α := Value) (.error (.missingValue p)) pre
      = .error (.missingValue (pre ++ "." ++ p)) := rfl

theorem map_err_prefix_path_not_missing (e : ConfErr) (pre : String)
    (hne : notMissing (α := Value) (.error e)) :
    map_err_prefix_path (α := Value) (.error e) pre = .error e := by
  cases e
  case missingValue p => exact hne.elim
  all_goals rfl

theorem notMissing_error_iff {α : Type} (e : ConfErr) :
    notMissing (α := α) (.error e) ↔ ∀ p, e ≠ ConfErr.missingValue p := by
  cases e <;> simp [notMissing]

mutual
/-- A complete layer never converts to a `MissingValue` error (though a
struct validator may still reject it). -/
theorem layer_complete_no_missing : ∀ (s : Schema) (l : Layer),
    Schema.matches s l = true → Schema.is_complete s l = true →
    notMissing (Config.from_layer s l)
| .mk _ validate sfs, .mk lfs, hm, hc => by
  simp only [Schema.matches] at hm
  simp only [Schema.is_complete] at hc
  simp only [Config.from_layer]
  have h1 := fields_complete_no_missing sfs lfs hm hc
  split
  next e heq =>
    rw [heq] at h1
    rw [notMissing_error_iff] at h1 ⊢
    exact h1
  next vfs heq =>
    split
    next => trivial
    next f =>
      split
      next => trivial
      next msg _ => trivial
theorem fields_complete_no_missing : ∀ (sfs : SchemaFields) (lfs : LayerFields),
    SchemaFields.matches sfs lfs = true → SchemaFields.is_complete sfs lfs = true →
    notMissing (SchemaFields.from_layer sfs lfs)
| .nil, .nil, _, _ => by simp [SchemaFields.from_layer, notMissing]
| .cons sf sfs, .cons lf lfs, hm, hc => by
  simp only [SchemaFields.matches, Bool.and_eq_true] at hm
  simp only [SchemaFields.is_complete, Bool.and_eq_true] at hc
  simp only [SchemaFields.from_layer]
  have h1 := field_complete_no_missing sf lf hm.1 hc.1
  split
  next e heq =>
    rw [heq] at h1
    rw [notMissing_error_iff] at h1 ⊢
    exact h1
  next vf heq =>
    have h2 := fields_complete_no_missing sfs lfs hm.2 hc.2
    split
    next e heq2 =>
      rw [heq2] at h2
      rw [notMissing_error_iff] at h2 ⊢
      exact h2
    next vfs heq2 => trivial
| .nil, .cons _ _, hm, _ => by simp [SchemaFields.matches] at hm
| .cons _ _, .nil, hm, _ => by simp [SchemaFields.matches] at hm
theorem field_complete_no_missing : ∀ (sf : SchemaField) (lf : LayerField),
    SchemaField.matches sf lf = true → SchemaField.is_complete sf lf = true →
    notMissing (SchemaField.from_layer sf lf)
| .leaf name false dflt env parse, .leaf v, _, hc => by
  simp only [SchemaField.is_complete, Bool.false_or] at hc
  cases v with
  | none => exact absurd hc (by simp)
  | some x =>
    simp [SchemaField.from_layer, unwrap_or_missing_value_err, Except.map, notMissing]
| .leaf name true dflt env parse, .leaf v, _, _ => by
  simp [SchemaField.from_layer, notMissing]
| .nested name s, .nested l, hm, hc => by
  simp only [SchemaField.matches] at hm
  simp only [SchemaField.is_complete] at hc
  have h1 := layer_complete_no_missing s l hm hc
  simp only [SchemaField.from_layer]
  cases hr : Config.from_layer s l with
  | error e =>
    rw [hr] at h1
    rw [map_err_prefix_path_not_missing e name h1]
    simp only [Except.map]
    rw [notMissing_error_iff] at h1 ⊢
    exact h1
  | ok v =>
    simp [map_err_prefix_path, Except.map, notMissing]
| .leaf _ _ _ _ _, .nested _, hm, _ => by simp [SchemaField.matches] at hm
| .nested _ _, .leaf _, hm, _ => by simp [SchemaField.matches] at hm
end

mutual
/-- Without struct validators, a complete layer converts successfully. -/
theorem layer_complete_ok : ∀ (s : Schema) (l : Layer),
    Schema.matches s l = true → Schema.noValidators s = true →
    Schema.is_complete s l = true →
    ∃ v, Config.from_layer s l = .ok v
| .mk _ validate sfs, .mk lfs, hm, hv, hc => by
  simp only [Schema.matches] at hm
  simp only [Schema.noValidators, Bool.and_eq_true, Option.isNone_iff_eq_none] at hv
  simp only [Schema.is_complete] at hc
  obtain ⟨vfs, hvfs⟩ := fields_complete_ok sfs lfs hm hv.2 hc
  refine ⟨.mk vfs, ?_⟩
  simp [Config.from_layer, hvfs, hv.1]
theorem fields_complete_ok : ∀ (sfs : SchemaFields) (lfs : LayerFields),
    SchemaFields.matches sfs lfs = true → SchemaFields.noValidators sfs = true →
    SchemaFields.is_complete sfs lfs = true →
    ∃ vfs, SchemaFields.from_layer sfs lfs = .ok vfs
| .nil, .nil, _, _, _ => ⟨.nil, rfl⟩
| .cons sf sfs, .cons lf lfs, hm, hv, hc => by
  simp only [SchemaFields.matches, Bool.and_eq_true] at hm
  simp only [SchemaFields.noValidators, Bool.and_eq_true] at hv
  simp only [SchemaFields.is_complete, Bool.and_eq_true] at hc
  obtain ⟨vf, hvf⟩ := field_complete_ok sf lf hm.1 hv.1 hc.1
  obtain ⟨vfs, hvfs⟩ := fields_complete_ok sfs lfs hm.2 hv.2 hc.2
  exact ⟨.cons vf vfs, by simp [SchemaFields.from_layer, hvf, hvfs]⟩
| .nil, .cons _ _, hm, _, _ => by simp [SchemaFields.matches] at hm
| .cons _ _, .nil, hm, _, _ => by simp [SchemaFields.matches] at hm
theorem field_complete_ok : ∀ (sf : SchemaField) (lf : LayerField),
    SchemaField.matches sf lf = true → SchemaField.noValidators sf = true →
    SchemaField.is_complete sf lf = true →
    ∃ vf, SchemaField.from_layer sf lf = .ok vf
| .leaf name false dflt env parse, .leaf v, _, _, hc => by
  simp only [SchemaField.is_complete, Bool.false_or] at hc
  cases v with
  | none => exact absurd hc (by simp)
  | some x => exact ⟨.leaf x, rfl⟩
| .leaf name true dflt env parse, .leaf v, _, _, _ => ⟨.optLeaf v, rfl⟩
| .nested name s, .nested l, hm, hv, hc => by
  simp only [SchemaField.matches] at hm
  simp only [SchemaField.noValidators] at hv
  simp only [SchemaField.is_complete] at hc
  obtain ⟨v, hvv⟩ := layer_complete_ok s l hm hv hc
  exact ⟨.nested v, by simp [SchemaField.from_layer, hvv, map_err_prefix_path, Except.map]⟩
| .leaf _ _ _ _ _, .nested _, hm, _, _ => by simp [SchemaField.matches] at hm
| .nested _ _, .leaf _, hm, _, _ => by simp [SchemaField.matches] at hm
end

mutual
/-- Without struct validators, an incomplete layer converts to a
`MissingValue` error. -/
theorem layer_incomplete_missing : ∀ (s : Schema) (l : Layer),
    Schema.matches s l = true → Schema.noValidators s = true →
    Schema.is_complete s l = false →
    ∃ p, Config.from_layer s l = .error (.missingValue p)
| .mk _ validate sfs, .mk lfs, hm, hv, hc => by
  simp only [Schema.matches] at hm
  simp only [Schema.noValidators, Bool.and_eq_true, Option.isNone_iff_eq_none] at hv
  simp only [Schema.is_complete] at hc
  obtain ⟨p, hp⟩ := fields_incomplete_missing sfs lfs hm hv.2 hc
  exact ⟨p, by simp [Config.from_layer, hp]⟩
theorem fields_incomplete_missing : ∀ (sfs : SchemaFields) (lfs : LayerFields),
    SchemaFields.matches sfs lfs = true → SchemaFields.noValidators sfs = true →
    SchemaFields.is_complete sfs lfs = false →
    ∃ p, SchemaFields.from_layer sfs lfs = .error (.missingValue p)
| .nil, .nil, _, _, hc => by simp [SchemaFields.is_complete] at hc
| .cons sf sfs, .cons lf lfs, hm, hv, hc => by
  simp only [SchemaFields.matches, Bool.and_eq_true] at hm
  simp only [SchemaFields.noValidators, Bool.and_eq_true] at hv
  rw [SchemaFields.is_complete, Bool.and_eq_false_iff] at hc
  cases hc1 : SchemaField.is_complete sf lf with
  | false =>
    obtain ⟨p, hp⟩ := field_incomplete_missing sf lf hm.1 hv.1 hc1
    exact ⟨p, by simp [SchemaFields.from_layer, hp]⟩
  | true =>
    have hc2 : SchemaFields.is_complete sfs lfs = false := by
      cases hc with
      | inl h => exact absurd hc1 (by simp [h])
      | inr h => exact h
    obtain ⟨vf, hvf⟩ := field_complete_ok sf lf hm.1 hv.1 hc1
    obtain ⟨p, hp⟩ := fields_incomplete_missing sfs lfs hm.2 hv.2 hc2
    exact ⟨p, by simp [SchemaFields.from_layer, hvf, hp]⟩
| .nil, .cons _ _, hm, _, _ => by simp [SchemaFields.matches] at hm
| .cons _ _, .nil, hm, _, _ => by simp [SchemaFields.matches] at hm
theorem field_incomplete_missing : ∀ (sf : SchemaField) (lf : LayerField),
    SchemaField.matches sf lf = true → SchemaField.noValidators sf = true →
    SchemaField.is_complete sf lf = false →
    ∃ p, SchemaField.from_layer sf lf = .error (.missingValue p)
| .leaf name false dflt env parse, .leaf v, _, _, hc => by
  simp only [SchemaField.is_complete, Bool.false_or] at hc
  cases v with
  | none => exact ⟨name, rfl⟩
  | some x => exact absurd hc (by simp)
| .leaf name true dflt env parse, .leaf v, _, _, hc => by
  simp [SchemaField.is_complete] at hc
| .nested name s, .nested l, hm, hv, hc => by
  simp only [SchemaField.matches] at hm
  simp only [SchemaField.noValidators] at hv
  simp only [SchemaField.is_complete] at hc
  obtain ⟨p, hp⟩ := layer_incomplete_missing s l hm hv hc
  refine ⟨name ++ "." ++ p, ?_⟩
  simp [SchemaField.from_layer, hp, map_err_prefix_path, Except.map]
| .leaf _ _ _ _ _, .nested _, hm, _, _ => by simp [SchemaField.matches] at hm
| .nested _ _, .leaf _, hm, _, _ => by simp [SchemaField.matches] at hm
end

/-! ### C3 -/

/-- `struct Conf { port: u16 = 8080 }`: one non-optional leaf with a
declared default. -/
def cexSchemaDefault : Schema :=
  .mk "Conf" none (.cons (.leaf "port" false (some 8080) none exParse) .nil)

/-- The layer of `cexSchemaDefault` with `port` unset. -/
def cexLayerNone : Layer := .mk (.cons (.leaf none) .nil)

/-- Counterexample for C3: on a layer whose only leaf has a declared
default but is `None`, the generated `is_complete` returns `false`
(and conversion fails with `MissingValue`), while the claim's
characterisation — only leaves with *no default* gate completeness —
says the layer is complete. -/
theorem is_complete_defaults_counterexample :
    Schema.is_complete cexSchemaDefault cexLayerNone = false
    ∧ Schema.spec_is_complete cexSchemaDefault cexLayerNone = true
    ∧ Config.from_layer cexSchemaDefault cexLayerNone = .error (.missingValue "port") :=
  ⟨rfl, rfl, rfl⟩

/-- C3 (amended): `is_complete()` is the conjunction of `is_some` over
every *declared-required* leaf — non-`Option` type, with or without a
default — and completeness of every nested child.  A complete layer
never converts to a `MissingValue` error; and for configurations without
struct-level validators, conversion fails with `MissingValue` exactly
when the layer is incomplete.  (With validators, a nested child's
validation failure can pre-empt a later missing value, so the unrestricted
"iff" direction does not hold.) -/
theorem is_complete_iff_no_missing (s : Schema) (l : Layer)
    (hm : Schema.matches s l = true) :
    (Schema.is_complete s l = true →
      ∀ p, Config.from_layer s l ≠ .error (.missingValue p))
    ∧ (Schema.noValidators s = true →
      (Schema.is_complete s l = false ↔
        ∃ p, Config.from_layer s l = .error (.missingValue p))) := by
  constructor
  · intro hc p hcontra
    have h1 := layer_complete_no_missing s l hm hc
    rw [hcontra] at h1
    exact h1
  · intro hv
    constructor
    · exact layer_incomplete_missing s l hm hv
    · rintro ⟨p, hp⟩
      cases hc : Schema.is_complete s l with
      | false => rfl
      | true =>
        obtain ⟨v, hok⟩ := layer_complete_ok s l hm hv hc
        rw [hok] at hp
        exact Except.noConfusion hp

/-- Witness for C3 (amended) at a concrete complete layer: conversion of
`exLayerA` (port set, optional `http.host` unset) does not produce a
`MissingValue` error. -/
theorem is_complete_iff_no_missing_witness :
    Config.from_layer exSchema exLayerA ≠ .error (.missingValue "port") :=
  (is_complete_iff_no_missing exSchema exLayerA rfl).1 rfl "port"

/-! ### C4 -/

/-- The dotted path carried by an error: only `MissingValue` has one. -/
def errPath : ConfErr → Option String
| .missingValue p => some p
| _ => none

/-- A validator that rejects every value. -/
def cexValidator : Value → Except String Unit := fun _ => .error "bad"

/-- `struct Child {}` with a struct-level validator that always fails. -/
def cexChild : Schema := .mk "Child" (some cexValidator) .nil

/-- `struct Parent { #[nested] http: Child }`. -/
def cexParent : Schema := .mk "Parent" none (.cons (.nested "http" cexChild) .nil)

def cexParentLayer : Layer := .mk (.cons (.nested (.mk .nil)) .nil)

/-- Counterexample for C4: the validation error produced inside the
nested field `http` propagates out of `Config::from_partial` completely
unchanged — it is not re-wrapped, and it carries no dotted path at all,
let alone one prefixed with the parent field's name. -/
theorem nested_error_prefixing_counterexample :
    Config.from_layer cexChild (.mk .nil) = .error (.validation "bad")
    ∧ Config.from_layer cexParent cexParentLayer = .error (.validation "bad")
    ∧ errPath (.validation "bad") = none :=
  ⟨rfl, rfl, rfl⟩

/-- C4 (amended): of the errors that can propagate out of a nested field
during conversion, exactly the `MissingValue` errors are re-wrapped with
the parent field's name dot-prepended to their path; every other error
(in particular a struct-validation error of the nested child) propagates
unchanged. -/
theorem nested_error_prefixing (name : String) (s : Schema) (l : Layer) :
    (∀ p, Config.from_layer s l = .error (.missingValue p) →
      SchemaField.from_layer (.nested name s) (.nested l)
        = .error (.missingValue (name ++ "." ++ p)))
    ∧ (∀ e, Config.from_layer s l = .error e → (∀ p, e ≠ .missingValue p) →
      SchemaField.from_layer (.nested name s) (.nested l) = .error e) := by
  constructor
  · intro p hp
    simp [SchemaField.from_layer, hp, map_err_prefix_path, Except.map]
  · intro e he hne
    simp only [SchemaField.from_layer, he]
    rw [map_err_prefix_path_not_missing e name ((notMissing_error_iff e).mpr hne)]
    simp [Except.map]

/-- `struct Http { port: u16 }` (required, no default). -/
def cexSchemaIncomplete : Schema :=
  .mk "Http" none (.cons (.leaf "port" false none none exParse) .nil)

/-- Witness for C4 (amended): a `MissingValue("port")` arising inside the
nested field `http` leaves the conversion as `MissingValue("http.port")`,
while the validation error of `cexChild` leaves it unchanged. -/
theorem nested_error_prefixing_witness :
    SchemaField.from_layer (.nested "http" cexSchemaIncomplete) (.nested cexLayerNone)
      = .error (.missingValue "http.port")
    ∧ SchemaField.from_layer (.nested "http" cexChild) (.nested (.mk .nil))
      = .error (.validation "bad") :=
  ⟨(nested_error_prefixing "http" cexSchemaIncomplete cexLayerNone).1 "port" rfl,
   (nested_error_prefixing "http" cexChild (.mk .nil)).2 (.validation "bad") rfl
     (fun p => by simp)⟩

/-! ### C9 -/

mutual
/-- The default-values layer is complete exactly when every non-optional
leaf has a declared default, recursively. -/
theorem req_have_defaults_eq : ∀ (s : Schema),
    Schema.reqHaveDefaults s = Schema.is_complete s (Schema.default_values s)
| .mk _ _ sfs => by
  simp only [Schema.reqHaveDefaults, Schema.default_values, Schema.is_complete]
  exact req_have_defaults_eq_fields sfs
theorem req_have_defaults_eq_fields : ∀ (sfs : SchemaFields),
    SchemaFields.reqHaveDefaults sfs
      = SchemaFields.is_complete sfs (SchemaFields.default_values sfs)
| .nil => rfl
| .cons sf rest => by
  simp only [SchemaFields.reqHaveDefaults, SchemaFields.default_values,
    SchemaFields.is_complete]
  rw [req_have_defaults_eq_field sf, req_have_defaults_eq_fields rest]
theorem req_have_defaults_eq_field : ∀ (sf : SchemaField),
    SchemaField.reqHaveDefaults sf
      = SchemaField.is_complete sf (SchemaField.default_values sf)
| .leaf _ false (some _) _ _ => rfl
| .leaf _ false none _ _ => rfl
| .leaf _ true (some _) _ _ => rfl
| .leaf _ true none _ _ => rfl
| .nested _ s => by
  simp only [SchemaField.reqHaveDefaults, SchemaField.default_values,
    SchemaField.is_complete]
  exact req_have_defaults_eq s
end

/-- A file parse function standing in for the TOML/YAML/JSON5
deserializer (never consulted when the file does not exist). -/
def exFileParse : String → Except String Layer := fun _ => .error "unused"

/-- `struct Conf { port: u16 = 8080 }` with an always-failing struct
validator. -/
def cexValidated : Schema :=
  .mk "Conf" (some cexValidator) (.cons (.leaf "port" false (some 8080) none exParse) .nil)

/-- Counterexample for C9: for a schema in which every required leaf has
a declared default but whose struct validator rejects the defaults,
`from_file` on a nonexistent path does *not* succeed — it fails with a
`Validation` error. -/
theorem from_file_defaults_counterexample :
    Schema.reqHaveDefaults cexValidated = true
    ∧ Config.from_file cexValidated "app.toml" .notFound exFileParse
        = .error (.validation "bad") :=
  ⟨rfl, rfl⟩

/-- C9 (amended): `from_file` marks the file required exactly when
`default_values().is_complete()` is false (equivalently, when some
required leaf lacks a default).  On a nonexistent path: if the default
values are complete, the result is exactly the conversion of the
default-values layer — a success whenever struct validators accept it,
and in particular always a success when the config declares no
validators; if they are incomplete, the result is a
`MissingRequiredFile` error. -/
theorem from_file_missing_behavior (s : Schema) (path : String)
    (parse : String → Except String Layer) :
    (Schema.reqHaveDefaults s = Schema.is_complete s (Schema.default_values s))
    ∧ (Schema.is_complete s (Schema.default_values s) = true →
        Config.from_file s path .notFound parse
          = Config.from_layer s (Schema.default_values s))
    ∧ (Schema.is_complete s (Schema.default_values s) = true →
        Schema.noValidators s = true →
        ∃ v, Config.from_file s path .notFound parse = .ok v)
    ∧ (Schema.is_complete s (Schema.default_values s) = false →
        Config.from_file s path .notFound parse
          = .error (.missingRequiredFile path)) := by
  have hdv := matches_default_values s
  refine ⟨req_have_defaults_eq s, ?_, ?_, ?_⟩
  · intro hc
    simp [Config.from_file, File.load, hc, layer_wf_empty_left s _ hdv]
  · intro hc hv
    obtain ⟨v, hok⟩ := layer_complete_ok s (Schema.default_values s) hdv hv hc
    refine ⟨v, ?_⟩
    rw [show Config.from_file s path .notFound parse
      = Config.from_layer s (Schema.default_values s) by
        simp [Config.from_file, File.load, hc, layer_wf_empty_left s _ hdv]]
    exact hok
  · intro hc
    simp [Config.from_file, File.load, hc]

/-- Witness for C9: with all defaults present (`exSchema`) `from_file` on
a missing file succeeds from defaults; with a required leaf lacking a
default (`cexSchemaIncomplete`) it fails with `MissingRequiredFile`. -/
theorem from_file_missing_behavior_witness :
    Config.from_file exSchema "app.toml" .notFound exFileParse
      = Config.from_layer exSchema (Schema.default_values exSchema)
    ∧ (∃ v, Config.from_file exSchema "app.toml" .notFound exFileParse = .ok v)
    ∧ Config.from_file cexSchemaIncomplete "app.toml" .notFound exFileParse
      = .error (.missingRequiredFile "app.toml") :=
  ⟨(from_file_missing_behavior exSchema "app.toml" exFileParse).2.1 rfl,
   (from_file_missing_behavior exSchema "app.toml" exFileParse).2.2.1 rfl rfl,
   (from_file_missing_behavior cexSchemaIncomplete "app.toml" exFileParse).2.2.2 rfl⟩

/-! ### C10: template walk (`src/template.rs`) and TOML formatter
(`src/toml.rs`) -/

mutual
/-- Mirror of `meta::Meta` as consumed by the template code: struct name,
doc lines, fields in declaration order. -/
inductive TMeta where
| mk (name : String) (doc : List String) (fields : TFields)
inductive TFields where
| nil
| cons (f : TField) (rest : TFields)
/-- Mirror of `meta::Field`. -/
inductive TField where
| mk (name : String) (doc : List String) (kind : TFieldKind)
/-- Mirror of `meta::FieldKind` (leaf with env key and leaf kind, or
nested meta). -/
inductive TFieldKind where
| leaf (env : Option String) (lk : TLeafKind)
| nested (m : TMeta)
/-- Mirror of `meta::LeafKind` (default literals stand in as `Val`). -/
inductive TLeafKind where
| optional
| required (dflt : Option Val)
end

/-- Mirror of `template::FormatOptions`. -/
structure TOptions where
  comments : Bool
  env_keys : Bool
  leaf_field_gap : Option Nat
  nested_field_gap : Nat

/-- Mirror of `FormatOptions::leaf_field_gap()` (`src/template.rs` lines
128-130): `self.leaf_field_gap.unwrap_or(self.comments as u8)`. -/
def TOptions.leafFieldGap (o : TOptions) : Nat :=
  o.leaf_field_gap.getD (if o.comments then 1 else 0)

/-- One call to a `Formatter` method during the template walk. -/
inductive TEvent where
| comment (text : String)
| envComment (key : String)
| defaultComment (dflt : Option Val)
| field (name : String) (dflt : Option Val)
| startNested (name : String) (doc : List String)
| endNested
| gap (n : Nat)
deriving DecidableEq, Repr

/-- Doc-comment events of one leaf (`field.doc.iter().for_each(...)`). -/
def leafDocEvents (doc : List String) (o : TOptions) : List TEvent :=
  if o.comments then doc.map TEvent.comment else []

/-- Env-note events of one leaf (separator comment when doc lines were
emitted — `emitted_something` — then the env comment). -/
def leafEnvEvents (doc : List String) (env : Option String) (o : TOptions) : List TEvent :=
  if o.comments then
    match env with
    | some k =>
      (if o.comments && !doc.isEmpty then [TEvent.comment ""] else [])
        ++ [TEvent.envComment k]
    | none => []
  else []

/-- Default/required-comment events of one `Required` leaf. -/
def leafDefaultEvents (doc : List String) (dflt : Option Val) (o : TOptions) : List TEvent :=
  if o.comments then
    (if o.comments && !doc.isEmpty then [TEvent.comment ""] else [])
      ++ [TEvent.defaultComment dflt]
  else []

/-- The `Formatter` calls made for one leaf field in
`template.rs::format_impl` (lines 179-210): doc comments, the
env-variable note, then — for a `Required` leaf — the default/required
comment, and finally the `disabled_field` call. -/
def leafEvents (name : String) (doc : List String) (env : Option String)
    (lk : TLeafKind) (o : TOptions) : List TEvent :=
  match lk with
  | .optional => leafDocEvents doc o ++ leafEnvEvents doc env o ++ [TEvent.field name none]
  | .required dflt =>
    leafDocEvents doc o ++ leafEnvEvents doc env o
      ++ leafDefaultEvents doc dflt o ++ [TEvent.field name dflt]

/-- True iff the field list contains a leaf field (the value of
`emitted_anything` after the leaf loop of `format_impl`). -/
def TFields.hasLeaf : TFields → Bool
| .nil => false
| .cons (.mk _ _ (.leaf _ _)) _ => true
| .cons (.mk _ _ (.nested _)) rest => TFields.hasLeaf rest

mutual
/-- Mirror of `template.rs::format_impl` (lines 165-229) as the sequence
of `Formatter` calls: all leaf fields first (gap between consecutive
ones), then all nested fields (each preceded by a gap once anything was
emitted), recursively. -/
def format_impl (m : TMeta) (o : TOptions) : List TEvent :=
  match m with
  | .mk _ _ fs => emitLeaves fs o 0 ++ emitNested fs o (TFields.hasLeaf fs)
/-- The first loop of `format_impl`: leaf fields only, `i` counts the
leaves already emitted. -/
def emitLeaves : TFields → TOptions → Nat → List TEvent
| .nil, _, _ => []
| .cons (.mk name doc (.leaf env lk)) rest, o, i =>
  (if i > 0 then [TEvent.gap o.leafFieldGap] else [])
    ++ leafEvents name doc env lk o ++ emitLeaves rest o (i + 1)
| .cons (.mk _ _ (.nested _)) rest, o, i => emitLeaves rest o i
/-- The second loop of `format_impl`: nested fields only; `any` is the
running `emitted_anything` flag. -/
def emitNested : TFields → TOptions → Bool → List TEvent
| .nil, _, _ => []
| .cons (.mk name doc (.nested m)) rest, o, any =>
  (if any then [TEvent.gap o.nested_field_gap] else [])
    ++ [TEvent.startNested name (if o.comments then doc else [])]
    ++ format_impl m o ++ [TEvent.endNested]
    ++ emitNested rest o true
| .cons (.mk _ _ (.leaf _ _)) rest, o, any => emitNested rest o any
end

/-- Mirror of `toml::FormatOptions`. -/
structure TomlOptions where
  indent : Nat
  comments : Bool
  env_keys : Bool

/-- One line emitted by `toml.rs::format_impl` (indentation elided). -/
inductive TomlItem where
| commentLine (text : String)
| blank
| fieldLine (name : String) (dflt : Option Val)
| header (path : List String)
deriving DecidableEq, Repr

/-- Doc-comment lines of one leaf in the TOML output. -/
def tomlDocItems (doc : List String) (o : TomlOptions) : List TomlItem :=
  if o.comments then doc.map TomlItem.commentLine else []

/-- Env-note lines of one leaf in the TOML output. -/
def tomlEnvItems (doc : List String) (env : Option String) (o : TomlOptions) : List TomlItem :=
  if o.comments then
    match env with
    | some k =>
      (if o.comments && !doc.isEmpty then [TomlItem.commentLine ""] else [])
        ++ [TomlItem.commentLine
            (" Can also be specified via environment variable `" ++ k ++ "`.")]
    | none => []
  else []

/-- Default/required comment and the `#name = value` line of one leaf. -/
def tomlBodyItems (name : String) (doc : List String) (lk : TLeafKind)
    (o : TomlOptions) : List TomlItem :=
  match lk with
  | .optional => [TomlItem.fieldLine name none]
  | .required dflt =>
    (if o.comments then
      (if o.comments && !doc.isEmpty then [TomlItem.commentLine ""] else [])
        ++ [TomlItem.commentLine
            (match dflt with
             | none => " Required! This value must be specified."
             | some v => " Default value: " ++ toString v)]
    else []) ++ [TomlItem.fieldLine name dflt]

/-- The `add_empty_line` call after a leaf (when comments are on). -/
def tomlBlankItems (o : TomlOptions) : List TomlItem :=
  if o.comments then [TomlItem.blank] else []

/-- The lines emitted for one leaf field by `toml.rs::format_impl`
(lines 153-192): doc comments, env note, default/required comment, the
commented-out `name = value` line, then an empty line. -/
def tomlLeafItems (name : String) (doc : List String) (env : Option String)
    (lk : TLeafKind) (o : TomlOptions) : List TomlItem :=
  tomlDocItems doc o ++ tomlEnvItems doc env o ++ tomlBodyItems name doc lk o
    ++ tomlBlankItems o

mutual
/-- Mirror of `toml.rs::format_impl` (lines 132-214): all leaf fields of
the struct first, then each nested field as a `[dotted.path]` table
header followed by its own fields, recursively. -/
def toml_format_impl (m : TMeta) (path : List String) (o : TomlOptions) : List TomlItem :=
  match m with
  | .mk _ _ fs => tomlEmitLeaves fs o ++ tomlEmitNested fs path o
def tomlEmitLeaves : TFields → TomlOptions → List TomlItem
| .nil, _ => []
| .cons (.mk name doc (.leaf env lk)) rest, o =>
  tomlLeafItems name doc env lk o ++ tomlEmitLeaves rest o
| .cons (.mk _ _ (.nested _)) rest, o => tomlEmitLeaves rest o
def tomlEmitNested : TFields → List String → TomlOptions → List TomlItem
| .nil, _, _ => []
| .cons (.mk name doc (.nested m)) rest, path, o =>
  [TomlItem.blank]
    ++ (if o.comments then doc.map TomlItem.commentLine else [])
    ++ [TomlItem.header (path ++ [name])]
    ++ toml_format_impl m (path ++ [name]) o
    ++ (if o.comments then [TomlItem.blank] else [])
    ++ tomlEmitNested rest path o
| .cons (.mk _ _ (.leaf _ _)) rest, path, o => tomlEmitNested rest path o
end

/-- Names of the leaf fields of a field list, in declaration order. -/
def TFields.leafNames : TFields → List String
| .nil => []
| .cons (.mk n _ (.leaf _ _)) rest => n :: TFields.leafNames rest
| .cons (.mk _ _ (.nested _)) rest => TFields.leafNames rest

/-- Names of the nested fields of a field list, in declaration order. -/
def TFields.nestedNames : TFields → List String
| .nil => []
| .cons (.mk _ _ (.leaf _ _)) rest => TFields.nestedNames rest
| .cons (.mk n _ (.nested _)) rest => n :: TFields.nestedNames rest

/-- All field names in declaration order. -/
def TFields.declNames : TFields → List String
| .nil => []
| .cons (.mk n _ _) rest => n :: TFields.declNames rest

/-- The fields of a meta. -/
def TMeta.fieldsOf : TMeta → TFields
| .mk _ _ fs => fs

/-- Depth-0 field and section names of an event stream: `field` names at
nesting depth 0 and `startNested` names opening at depth 0, in order. -/
def topLevelNames : List TEvent → Nat → List String
| [], _ => []
| .startNested n _ :: rest, 0 => n :: topLevelNames rest 1
| .startNested _ _ :: rest, d + 1 => topLevelNames rest (d + 2)
| .endNested :: rest, d + 1 => topLevelNames rest d
| .endNested :: rest, 0 => topLevelNames rest 0
| .field n _ :: rest, 0 => n :: topLevelNames rest 0
| .field _ _ :: rest, d + 1 => topLevelNames rest (d + 1)
| .comment _ :: rest, d => topLevelNames rest d
| .envComment _ :: rest, d => topLevelNames rest d
| .defaultComment _ :: rest, d => topLevelNames rest d
| .gap _ :: rest, d => topLevelNames rest d

/-- True for the two events that open or close a nested section. -/
def TEvent.isNesting : TEvent → Bool
| .startNested _ _ => true
| .endNested => true
| _ => false

/-- The names of the `field` events of a stream. -/
def fieldNamesOf (es : List TEvent) : List String :=
  es.filterMap (fun e => match e with | .field n _ => some n | _ => none)

theorem topLevelNames_flat_append (es ys : List TEvent)
    (h : ∀ e ∈ es, e.isNesting = false) :
    topLevelNames (es ++ ys) 0 = fieldNamesOf es ++ topLevelNames ys 0 := by
  induction es with
  | nil => simp [fieldNamesOf]
  | cons e rest ih =>
    have he := h e (by simp)
    have hrest : ∀ e ∈ rest, TEvent.isNesting e = false := fun e hm => h e (by simp [hm])
    cases e with
    | startNested n d => simp [TEvent.isNesting] at he
    | endNested => simp [TEvent.isNesting] at he
    | field n d => simp [topLevelNames, fieldNamesOf, ih hrest, fieldNamesOf]
    | comment t => simp [topLevelNames, fieldNamesOf, ih hrest]
    | envComment k => simp [topLevelNames, fieldNamesOf, ih hrest]
    | defaultComment d => simp [topLevelNames, fieldNamesOf, ih hrest]
    | gap n => simp [topLevelNames, fieldNamesOf, ih hrest]

/-- Well-nested event streams. -/
inductive BalancedEv : List TEvent → Prop where
| nil : BalancedEv []
| flat : ∀ (e : TEvent) (es : List TEvent),
    e.isNesting = false → BalancedEv es → BalancedEv (e :: es)
| wrap : ∀ (n : String) (d : List String) (inner rest : List TEvent),
    BalancedEv inner → BalancedEv rest →
    BalancedEv (.startNested n d :: (inner ++ .endNested :: rest))

theorem balanced_append {xs ys : List TEvent}
    (hx : BalancedEv xs) (hy : BalancedEv ys) : BalancedEv (xs ++ ys) := by
  induction hx with
  | nil => exact hy
  | flat e es he _ ih => exact .flat e (es ++ ys) he ih
  | wrap n d inner rest hi _ ihi ihr =>
    have : (TEvent.startNested n d :: (inner ++ .endNested :: rest)) ++ ys
        = .startNested n d :: (inner ++ .endNested :: (rest ++ ys)) := by
      simp
    rw [this]
    exact .wrap n d inner (rest ++ ys) hi ihr

theorem balanced_of_flat (es : List TEvent)
    (h : ∀ e ∈ es, e.isNesting = false) : BalancedEv es := by
  induction es with
  | nil => exact .nil
  | cons e rest ih =>
    exact .flat e rest (h e (by simp)) (ih (fun e hm => h e (by simp [hm])))

theorem topLevelNames_balanced_skip {es : List TEvent} (h : BalancedEv es) :
    ∀ (d : Nat) (ys : List TEvent),
    topLevelNames (es ++ ys) (d + 1) = topLevelNames ys (d + 1) := by
  induction h with
  | nil => intro d ys; rfl
  | flat e es' he _ ih =>
    intro d ys
    cases e with
    | startNested n doc => simp [TEvent.isNesting] at he
    | endNested => simp [TEvent.isNesting] at he
    | field n dv => simpa [topLevelNames] using ih d ys
    | comment t => simpa [topLevelNames] using ih d ys
    | envComment k => simpa [topLevelNames] using ih d ys
    | defaultComment dv => simpa [topLevelNames] using ih d ys
    | gap n => simpa [topLevelNames] using ih d ys
  | wrap n doc inner rest _ _ ihi ihr =>
    intro d ys
    have hassoc : (TEvent.startNested n doc :: (inner ++ .endNested :: rest)) ++ ys
        = .startNested n doc :: (inner ++ (.endNested :: (rest ++ ys))) := by
      simp
    rw [hassoc]
    show topLevelNames (.startNested n doc :: (inner ++ .endNested :: (rest ++ ys))) (d + 1)
      = topLevelNames ys (d + 1)
    rw [show topLevelNames (.startNested n doc :: (inner ++ .endNested :: (rest ++ ys))) (d + 1)
      = topLevelNames (inner ++ .endNested :: (rest ++ ys)) (d + 2) from rfl]
    rw [show (TEvent.endNested :: (rest ++ ys)) = ([TEvent.endNested] ++ (rest ++ ys)) from rfl]
    rw [ihi (d + 1) ([TEvent.endNested] ++ (rest ++ ys))]
    show topLevelNames (.endNested :: (rest ++ ys)) (d + 2) = topLevelNames ys (d + 1)
    rw [show topLevelNames (.endNested :: (rest ++ ys)) (d + 2)
      = topLevelNames (rest ++ ys) (d + 1) from rfl]
    exact ihr d ys

theorem leafDocEvents_flat (doc : List String) (o : TOptions) :
    ∀ e ∈ leafDocEvents doc o, e.isNesting = false := by
  intro e he
  unfold leafDocEvents at he
  split at he
  · obtain ⟨d, _, rfl⟩ := List.mem_map.mp he
    rfl
  · simp at he

theorem leafEnvEvents_flat (doc : List String) (env : Option String) (o : TOptions) :
    ∀ e ∈ leafEnvEvents doc env o, e.isNesting = false := by
  intro e he
  unfold leafEnvEvents at he
  split at he
  · cases env with
    | some k =>
      simp only [List.mem_append] at he
      rcases he with he | he
      · split at he
        · simp at he
          subst he
          rfl
        · simp at he
      · simp at he
        subst he
        rfl
    | none => simp at he
  · simp at he

theorem leafDefaultEvents_flat (doc : List String) (dflt : Option Val) (o : TOptions) :
    ∀ e ∈ leafDefaultEvents doc dflt o, e.isNesting = false := by
  intro e he
  unfold leafDefaultEvents at he
  split at he
  · simp only [List.mem_append] at he
    rcases he with he | he
    · split at he
      · simp at he
        subst he
        rfl
      · simp at he
    · simp at he
      subst he
      rfl
  · simp at he

theorem leafEvents_flat (name : String) (doc : List String) (env : Option String)
    (lk : TLeafKind) (o : TOptions) :
    ∀ e ∈ leafEvents name doc env lk o, e.isNesting = false := by
  intro e he
  cases lk with
  | optional =>
    simp only [leafEvents] at he
    rcases List.mem_append.mp he with h12 | h3
    · rcases List.mem_append.mp h12 with h1 | h2
      · exact leafDocEvents_flat doc o e h1
      · exact leafEnvEvents_flat doc env o e h2
    · simp at h3
      subst h3
      rfl
  | required dflt =>
    simp only [leafEvents] at he
    rcases List.mem_append.mp he with h123 | h4
    · rcases List.mem_append.mp h123 with h12 | h3
      · rcases List.mem_append.mp h12 with h1 | h2
        · exact leafDocEvents_flat doc o e h1
        · exact leafEnvEvents_flat doc env o e h2
      · exact leafDefaultEvents_flat doc dflt o e h3
    · simp at h4
      subst h4
      rfl

theorem fieldNamesOf_append (xs ys : List TEvent) :
    fieldNamesOf (xs ++ ys) = fieldNamesOf xs ++ fieldNamesOf ys := by
  simp [fieldNamesOf, List.filterMap_append]

theorem fieldNamesOf_comments (docList : List String) :
    fieldNamesOf (docList.map TEvent.comment) = [] := by
  induction docList with
  | nil => rfl
  | cons d rest ih =>
    simp only [List.map_cons, fieldNamesOf, List.filterMap_cons] at ih ⊢
    exact ih

theorem fieldNamesOf_leafDocEvents (doc : List String) (o : TOptions) :
    fieldNamesOf (leafDocEvents doc o) = [] := by
  unfold leafDocEvents
  split
  · exact fieldNamesOf_comments doc
  · rfl

theorem fieldNamesOf_leafEnvEvents (doc : List String) (env : Option String) (o : TOptions) :
    fieldNamesOf (leafEnvEvents doc env o) = [] := by
  unfold leafEnvEvents
  split
  · cases env with
    | some k =>
      rw [fieldNamesOf_append]
      split <;> rfl
    | none => rfl
  · rfl

theorem fieldNamesOf_leafDefaultEvents (doc : List String) (dflt : Option Val) (o : TOptions) :
    fieldNamesOf (leafDefaultEvents doc dflt o) = [] := by
  unfold leafDefaultEvents
  split
  · rw [fieldNamesOf_append]
    split <;> rfl
  · rfl

theorem fieldNamesOf_leafEvents (name : String) (doc : List String) (env : Option String)
    (lk : TLeafKind) (o : TOptions) :
    fieldNamesOf (leafEvents name doc env lk o) = [name] := by
  cases lk with
  | optional =>
    simp only [leafEvents]
    rw [fieldNamesOf_append, fieldNamesOf_append, fieldNamesOf_leafDocEvents,
      fieldNamesOf_leafEnvEvents]
    rfl
  | required dflt =>
    simp only [leafEvents]
    rw [fieldNamesOf_append, fieldNamesOf_append, fieldNamesOf_append,
      fieldNamesOf_leafDocEvents, fieldNamesOf_leafEnvEvents,
      fieldNamesOf_leafDefaultEvents]
    rfl

theorem emitLeaves_flat : ∀ (fs : TFields) (o : TOptions) (i : Nat),
    ∀ e ∈ emitLeaves fs o i, e.isNesting = false
| .nil, _, _ => by
  intro e he
  simp [emitLeaves] at he
| .cons (.mk name doc (.leaf env lk)) rest, o, i => by
  intro e he
  simp only [emitLeaves] at he
  rcases List.mem_append.mp he with h12 | h3
  · rcases List.mem_append.mp h12 with h1 | h2
    · split at h1
      · simp at h1
        subst h1
        rfl
      · simp at h1
    · exact leafEvents_flat name doc env lk o e h2
  · exact emitLeaves_flat rest o (i + 1) e h3
| .cons (.mk name doc (.nested m)) rest, o, i => by
  intro e he
  simp only [emitLeaves] at he
  exact emitLeaves_flat rest o i e he

theorem fieldNamesOf_emitLeaves : ∀ (fs : TFields) (o : TOptions) (i : Nat),
    fieldNamesOf (emitLeaves fs o i) = TFields.leafNames fs
| .nil, _, _ => rfl
| .cons (.mk name doc (.leaf env lk)) rest, o, i => by
  simp only [emitLeaves, TFields.leafNames]
  rw [fieldNamesOf_append, fieldNamesOf_append, fieldNamesOf_leafEvents,
    fieldNamesOf_emitLeaves rest o (i + 1)]
  split <;> rfl
| .cons (.mk name doc (.nested m)) rest, o, i => by
  simp only [emitLeaves, TFields.leafNames]
  exact fieldNamesOf_emitLeaves rest o i

mutual
theorem balanced_format_impl : ∀ (m : TMeta) (o : TOptions), BalancedEv (format_impl m o)
| .mk _ _ fs, o => by
  simp only [format_impl]
  exact balanced_append (balanced_of_flat _ (emitLeaves_flat fs o 0))
    (balanced_emitNested fs o (TFields.hasLeaf fs))
theorem balanced_emitNested : ∀ (fs : TFields) (o : TOptions) (any : Bool),
    BalancedEv (emitNested fs o any)
| .nil, o, any => by
  simp only [emitNested]
  exact .nil
| .cons (.mk name doc (.nested m)) rest, o, any => by
  simp only [emitNested]
  have hsh : (if any then [TEvent.gap o.nested_field_gap] else ([] : List TEvent))
        ++ [TEvent.startNested name (if o.comments then doc else [])]
        ++ format_impl m o ++ [TEvent.endNested] ++ emitNested rest o true
      = (if any then [TEvent.gap o.nested_field_gap] else [])
        ++ (TEvent.startNested name (if o.comments then doc else [])
            :: (format_impl m o ++ (TEvent.endNested :: emitNested rest o true))) := by
    simp
  rw [hsh]
  have hflat : ∀ e ∈ (if any then [TEvent.gap o.nested_field_gap] else ([] : List TEvent)),
      TEvent.isNesting e = false := by
    intro e he
    split at he
    · simp at he
      subst he
      rfl
    · simp at he
  exact balanced_append (balanced_of_flat _ hflat)
    (.wrap name _ (format_impl m o) (emitNested rest o true)
      (balanced_format_impl m o) (balanced_emitNested rest o true))
| .cons (.mk name doc (.leaf env lk)) rest, o, any => by
  simp only [emitNested]
  exact balanced_emitNested rest o any
end

theorem topLevelNames_emitNested : ∀ (fs : TFields) (o : TOptions) (any : Bool),
    topLevelNames (emitNested fs o any) 0 = TFields.nestedNames fs
| .nil, _, _ => rfl
| .cons (.mk name doc (.nested m)) rest, o, any => by
  simp only [emitNested, TFields.nestedNames]
  have hsh : (if any then [TEvent.gap o.nested_field_gap] else ([] : List TEvent))
        ++ [TEvent.startNested name (if o.comments then doc else [])]
        ++ format_impl m o ++ [TEvent.endNested] ++ emitNested rest o true
      = (if any then [TEvent.gap o.nested_field_gap] else [])
        ++ (TEvent.startNested name (if o.comments then doc else [])
            :: (format_impl m o ++ (TEvent.endNested :: emitNested rest o true))) := by
    simp
  rw [hsh]
  have hflat : ∀ e ∈ (if any then [TEvent.gap o.nested_field_gap] else ([] : List TEvent)),
      TEvent.isNesting e = false := by
    intro e he
    split at he
    · simp at he
      subst he
      rfl
    · simp at he
  rw [topLevelNames_flat_append _ _ hflat]
  have hfA : fieldNamesOf
      (if any then [TEvent.gap o.nested_field_gap] else ([] : List TEvent)) = [] := by
    split <;> rfl
  rw [hfA]
  simp only [List.nil_append]
  rw [show topLevelNames (TEvent.startNested name (if o.comments then doc else [])
        :: (format_impl m o ++ (TEvent.endNested :: emitNested rest o true))) 0
      = name :: topLevelNames
          (format_impl m o ++ (TEvent.endNested :: emitNested rest o true)) 1 from rfl]
  have hskip := topLevelNames_balanced_skip (balanced_format_impl m o) 0
    (TEvent.endNested :: emitNested rest o true)
  simp only [Nat.zero_add] at hskip
  rw [hskip]
  rw [show topLevelNames (TEvent.endNested :: emitNested rest o true) 1
      = topLevelNames (emitNested rest o true) 0 from rfl]
  rw [topLevelNames_emitNested rest o true]
| .cons (.mk name doc (.leaf env lk)) rest, o, any => by
  simp only [emitNested, TFields.nestedNames]
  exact topLevelNames_emitNested rest o any

/-- The shared template walk lists the leaf fields of a struct first, in
declaration order, then its nested sections, in declaration order. -/
theorem template_order_lemma (m : TMeta) (o : TOptions) :
    topLevelNames (format_impl m o) 0
      = TFields.leafNames (TMeta.fieldsOf m) ++ TFields.nestedNames (TMeta.fieldsOf m) := by
  cases m with
  | mk n d fs =>
    simp only [format_impl, TMeta.fieldsOf]
    rw [topLevelNames_flat_append _ _ (emitLeaves_flat fs o 0),
      fieldNamesOf_emitLeaves fs o 0, topLevelNames_emitNested fs o (TFields.hasLeaf fs)]

/-- The names of the (commented-out) field lines of a TOML item list. -/
def tomlFieldNames (items : List TomlItem) : List String :=
  items.filterMap (fun it => match it with | .fieldLine n _ => some n | _ => none)

/-- True for `[dotted.path]` table-header lines. -/
def TomlItem.isHeader : TomlItem → Bool
| .header _ => true
| _ => false

/-- The header paths of length `k` in a TOML item list, in order. -/
def tomlHeaderPathsAt (k : Nat) (items : List TomlItem) : List (List String) :=
  items.filterMap (fun it => match it with
    | .header p => if p.length = k then some p else none
    | _ => none)

theorem tomlFieldNames_append (xs ys : List TomlItem) :
    tomlFieldNames (xs ++ ys) = tomlFieldNames xs ++ tomlFieldNames ys := by
  simp [tomlFieldNames, List.filterMap_append]

theorem tomlHeaderPathsAt_append (k : Nat) (xs ys : List TomlItem) :
    tomlHeaderPathsAt k (xs ++ ys) = tomlHeaderPathsAt k xs ++ tomlHeaderPathsAt k ys := by
  simp [tomlHeaderPathsAt, List.filterMap_append]

theorem tomlFieldNames_commentLines (docList : List String) :
    tomlFieldNames (docList.map TomlItem.commentLine) = [] := by
  induction docList with
  | nil => rfl
  | cons d rest ih =>
    simp only [List.map_cons, tomlFieldNames, List.filterMap_cons] at ih ⊢
    exact ih

theorem tomlDocItems_no_header (doc : List String) (o : TomlOptions) :
    ∀ it ∈ tomlDocItems doc o, it.isHeader = false := by
  intro it hit
  unfold tomlDocItems at hit
  split at hit
  · obtain ⟨d, _, rfl⟩ := List.mem_map.mp hit
    rfl
  · simp at hit

theorem tomlEnvItems_no_header (doc : List String) (env : Option String) (o : TomlOptions) :
    ∀ it ∈ tomlEnvItems doc env o, it.isHeader = false := by
  intro it hit
  unfold tomlEnvItems at hit
  split at hit
  · cases env with
    | some k =>
      rcases List.mem_append.mp hit with h1 | h2
      · split at h1
        · simp at h1
          subst h1
          rfl
        · simp at h1
      · simp at h2
        subst h2
        rfl
    | none => simp at hit
  · simp at hit

theorem tomlBodyItems_no_header (name : String) (doc : List String) (lk : TLeafKind)
    (o : TomlOptions) : ∀ it ∈ tomlBodyItems name doc lk o, it.isHeader = false := by
  intro it hit
  cases lk with
  | optional =>
    simp only [tomlBodyItems] at hit
    simp at hit
    subst hit
    rfl
  | required dflt =>
    simp only [tomlBodyItems] at hit
    rcases List.mem_append.mp hit with h1 | h2
    · split at h1
      · rcases List.mem_append.mp h1 with h3 | h4
        · split at h3
          · simp at h3
            subst h3
            rfl
          · simp at h3
        · simp at h4
          subst h4
          rfl
      · simp at h1
    · simp at h2
      subst h2
      rfl

theorem tomlBlankItems_no_header (o : TomlOptions) :
    ∀ it ∈ tomlBlankItems o, it.isHeader = false := by
  intro it hit
  unfold tomlBlankItems at hit
  split at hit
  · simp at hit
    subst hit
    rfl
  · simp at hit

theorem tomlLeafItems_no_header (name : String) (doc : List String) (env : Option String)
    (lk : TLeafKind) (o : TomlOptions) :
    ∀ it ∈ tomlLeafItems name doc env lk o, it.isHeader = false := by
  intro it hit
  simp only [tomlLeafItems] at hit
  rcases List.mem_append.mp hit with h123 | h4
  · rcases List.mem_append.mp h123 with h12 | h3
    · rcases List.mem_append.mp h12 with h1 | h2
      · exact tomlDocItems_no_header doc o it h1
      · exact tomlEnvItems_no_header doc env o it h2
    · exact tomlBodyItems_no_header name doc lk o it h3
  · exact tomlBlankItems_no_header o it h4

theorem tomlEmitLeaves_no_header : ∀ (fs : TFields) (o : TomlOptions),
    ∀ it ∈ tomlEmitLeaves fs o, it.isHeader = false
| .nil, _ => by
  intro it hit
  simp [tomlEmitLeaves] at hit
| .cons (.mk name doc (.leaf env lk)) rest, o => by
  intro it hit
  simp only [tomlEmitLeaves] at hit
  rcases List.mem_append.mp hit with h1 | h2
  · exact tomlLeafItems_no_header name doc env lk o it h1
  · exact tomlEmitLeaves_no_header rest o it h2
| .cons (.mk name doc (.nested m)) rest, o => by
  intro it hit
  simp only [tomlEmitLeaves] at hit
  exact tomlEmitLeaves_no_header rest o it hit

theorem tomlFieldNames_tomlDocItems (doc : List String) (o : TomlOptions) :
    tomlFieldNames (tomlDocItems doc o) = [] := by
  unfold tomlDocItems
  split
  · exact tomlFieldNames_commentLines doc
  · rfl

theorem tomlFieldNames_tomlEnvItems (doc : List String) (env : Option String)
    (o : TomlOptions) : tomlFieldNames (tomlEnvItems doc env o) = [] := by
  unfold tomlEnvItems
  split
  · cases env with
    | some k =>
      rw [tomlFieldNames_append]
      split <;> rfl
    | none => rfl
  · rfl

theorem tomlFieldNames_tomlBodyItems (name : String) (doc : List String) (lk : TLeafKind)
    (o : TomlOptions) : tomlFieldNames (tomlBodyItems name doc lk o) = [name] := by
  cases lk with
  | optional => rfl
  | required dflt =>
    simp only [tomlBodyItems]
    rw [tomlFieldNames_append]
    have h1 : tomlFieldNames
        (if o.comments then
          (if o.comments && !doc.isEmpty then [TomlItem.commentLine ""] else [])
            ++ [TomlItem.commentLine
                (match dflt with
                 | none => " Required! This value must be specified."
                 | some v => " Default value: " ++ toString v)]
        else []) = [] := by
      split
      · rw [tomlFieldNames_append]
        split <;> rfl
      · rfl
    rw [h1]
    rfl

theorem tomlFieldNames_tomlBlankItems (o : TomlOptions) :
    tomlFieldNames (tomlBlankItems o) = [] := by
  unfold tomlBlankItems
  split <;> rfl

theorem tomlFieldNames_tomlLeafItems (name : String) (doc : List String)
    (env : Option String) (lk : TLeafKind) (o : TomlOptions) :
    tomlFieldNames (tomlLeafItems name doc env lk o) = [name] := by
  simp only [tomlLeafItems]
  rw [tomlFieldNames_append, tomlFieldNames_append, tomlFieldNames_append,
    tomlFieldNames_tomlDocItems, tomlFieldNames_tomlEnvItems,
    tomlFieldNames_tomlBodyItems, tomlFieldNames_tomlBlankItems]
  rfl

theorem tomlFieldNames_tomlEmitLeaves : ∀ (fs : TFields) (o : TomlOptions),
    tomlFieldNames (tomlEmitLeaves fs o) = TFields.leafNames fs
| .nil, _ => rfl
| .cons (.mk name doc (.leaf env lk)) rest, o => by
  simp only [tomlEmitLeaves, TFields.leafNames]
  rw [tomlFieldNames_append, tomlFieldNames_tomlLeafItems,
    tomlFieldNames_tomlEmitLeaves rest o]
  rfl
| .cons (.mk name doc (.nested m)) rest, o => by
  simp only [tomlEmitLeaves, TFields.leafNames]
  exact tomlFieldNames_tomlEmitLeaves rest o

theorem takeWhile_append_of_all {α : Type} (p : α → Bool) (xs ys : List α)
    (h : ∀ a ∈ xs, p a = true) : (xs ++ ys).takeWhile p = xs ++ ys.takeWhile p := by
  induction xs with
  | nil => simp
  | cons a rest ih =>
    simp [List.takeWhile_cons, h a (by simp),
      ih (fun b hb => h b (by simp [hb]))]

mutual
/-- Every table header emitted below `path` carries a strictly longer
dotted path. -/
theorem toml_headers_long : ∀ (m : TMeta) (path : List String) (o : TomlOptions)
    (p : List String), TomlItem.header p ∈ toml_format_impl m path o →
    path.length < p.length
| .mk _ _ fs, path, o, p => by
  intro hit
  simp only [toml_format_impl] at hit
  rcases List.mem_append.mp hit with h1 | h2
  · exact absurd (tomlEmitLeaves_no_header fs o _ h1) (by simp [TomlItem.isHeader])
  · exact toml_headers_long_nested fs path o p h2
theorem toml_headers_long_nested : ∀ (fs : TFields) (path : List String) (o : TomlOptions)
    (p : List String), TomlItem.header p ∈ tomlEmitNested fs path o →
    path.length < p.length
| .nil, _, _, _ => by
  intro hit
  simp [tomlEmitNested] at hit
| .cons (.mk name doc (.nested m)) rest, path, o, p => by
  intro hit
  simp only [tomlEmitNested] at hit
  rcases List.mem_append.mp hit with h5 | hR
  · rcases List.mem_append.mp h5 with h4 | hbo
    · rcases List.mem_append.mp h4 with h3 | hchild
      · rcases List.mem_append.mp h3 with h2 | hh
        · rcases List.mem_append.mp h2 with hb | hC
          · simp at hb
          · split at hC
            · obtain ⟨d, _, heq⟩ := List.mem_map.mp hC
              simp at heq
            · simp at hC
        · simp at hh
          subst hh
          simp
      · have h := toml_headers_long m (path ++ [name]) o p hchild
        simp only [List.length_append, List.length_cons, List.length_nil] at h
        omega
    · split at hbo
      · simp at hbo
      · simp at hbo
  · exact toml_headers_long_nested rest path o p hR
| .cons (.mk name doc (.leaf env lk)) rest, path, o, p => by
  intro hit
  simp only [tomlEmitNested] at hit
  exact toml_headers_long_nested rest path o p hit
end

theorem tomlHeaderPathsAt_nil_of_no_header (k : Nat) (items : List TomlItem)
    (h : ∀ it ∈ items, it.isHeader = false) : tomlHeaderPathsAt k items = [] := by
  unfold tomlHeaderPathsAt
  refine List.filterMap_eq_nil_iff.mpr ?_
  intro it hit
  cases it with
  | header p => exact absurd (h _ hit) (by simp [TomlItem.isHeader])
  | commentLine t => rfl
  | blank => rfl
  | fieldLine n d => rfl

theorem tomlHeaderPathsAt_nil_of_long (k : Nat) (items : List TomlItem)
    (h : ∀ p, TomlItem.header p ∈ items → k < p.length) :
    tomlHeaderPathsAt k items = [] := by
  unfold tomlHeaderPathsAt
  refine List.filterMap_eq_nil_iff.mpr ?_
  intro it hit
  cases it with
  | header p =>
    have := h p hit
    simp only [ite_eq_right_iff]
    intro heq
    omega
  | commentLine t => rfl
  | blank => rfl
  | fieldLine n d => rfl

theorem toml_section_paths : ∀ (fs : TFields) (path : List String) (o : TomlOptions),
    tomlHeaderPathsAt (path.length + 1) (tomlEmitNested fs path o)
      = (TFields.nestedNames fs).map (fun n => path ++ [n])
| .nil, _, _ => rfl
| .cons (.mk name doc (.nested m)) rest, path, o => by
  simp only [tomlEmitNested, TFields.nestedNames, List.map_cons]
  rw [tomlHeaderPathsAt_append, tomlHeaderPathsAt_append, tomlHeaderPathsAt_append,
    tomlHeaderPathsAt_append, tomlHeaderPathsAt_append]
  have hC : tomlHeaderPathsAt (path.length + 1)
      (if o.comments then doc.map TomlItem.commentLine else []) = [] := by
    refine tomlHeaderPathsAt_nil_of_no_header _ _ ?_
    intro it hit
    split at hit
    · obtain ⟨d, _, rfl⟩ := List.mem_map.mp hit
      rfl
    · simp at hit
  have hh : tomlHeaderPathsAt (path.length + 1) [TomlItem.header (path ++ [name])]
      = [path ++ [name]] := by
    simp [tomlHeaderPathsAt, List.filterMap_cons]
  have hchild : tomlHeaderPathsAt (path.length + 1)
      (toml_format_impl m (path ++ [name]) o) = [] := by
    refine tomlHeaderPathsAt_nil_of_long _ _ ?_
    intro p hp
    have h := toml_headers_long m (path ++ [name]) o p hp
    simp only [List.length_append, List.length_cons, List.length_nil] at h
    omega
  have hbo : tomlHeaderPathsAt (path.length + 1)
      (if o.comments then [TomlItem.blank] else []) = [] := by
    split <;> rfl
  rw [hC, hh, hchild, hbo, toml_section_paths rest path o]
  simp [tomlHeaderPathsAt]
| .cons (.mk name doc (.leaf env lk)) rest, path, o => by
  simp only [tomlEmitNested, TFields.nestedNames]
  exact toml_section_paths rest path o

theorem tomlFieldNames_takeWhile_emitNested :
    ∀ (fs : TFields) (path : List String) (o : TomlOptions),
    tomlFieldNames ((tomlEmitNested fs path o).takeWhile (fun it => !it.isHeader)) = []
| .nil, _, _ => rfl
| .cons (.mk name doc (.nested m)) rest, path, o => by
  simp only [tomlEmitNested]
  have hsh : [TomlItem.blank] ++ (if o.comments then doc.map TomlItem.commentLine else [])
        ++ [TomlItem.header (path ++ [name])] ++ toml_format_impl m (path ++ [name]) o
        ++ (if o.comments then [TomlItem.blank] else []) ++ tomlEmitNested rest path o
      = ([TomlItem.blank] ++ (if o.comments then doc.map TomlItem.commentLine else []))
        ++ (TomlItem.header (path ++ [name])
            :: (toml_format_impl m (path ++ [name]) o
              ++ ((if o.comments then [TomlItem.blank] else [])
                ++ tomlEmitNested rest path o))) := by
    simp
  rw [hsh]
  have hpass : ∀ it ∈ [TomlItem.blank]
      ++ (if o.comments then doc.map TomlItem.commentLine else []),
      (fun it => !TomlItem.isHeader it) it = true := by
    intro it hit
    rcases List.mem_append.mp hit with h1 | h2
    · simp at h1
      subst h1
      rfl
    · split at h2
      · obtain ⟨d, _, rfl⟩ := List.mem_map.mp h2
        rfl
      · simp at h2
  rw [takeWhile_append_of_all _ _ _ hpass]
  rw [show ((TomlItem.header (path ++ [name])
      :: (toml_format_impl m (path ++ [name]) o
        ++ ((if o.comments then [TomlItem.blank] else [])
          ++ tomlEmitNested rest path o))).takeWhile (fun it => !TomlItem.isHeader it))
    = [] from rfl]
  rw [tomlFieldNames_append, tomlFieldNames_append]
  have hC : tomlFieldNames (if o.comments then doc.map TomlItem.commentLine else []) = [] := by
    split
    · exact tomlFieldNames_commentLines doc
    · rfl
  rw [hC]
  rfl
| .cons (.mk name doc (.leaf env lk)) rest, path, o => by
  simp only [tomlEmitNested]
  exact tomlFieldNames_takeWhile_emitNested rest path o

/-- The TOML formatter lists the leaf fields of the struct before its
first table header, in declaration order, and emits one top-level table
header per nested field, in declaration order. -/
theorem toml_order_lemma (m : TMeta) (o : TomlOptions) :
    tomlFieldNames ((toml_format_impl m [] o).takeWhile (fun it => !it.isHeader))
      = TFields.leafNames (TMeta.fieldsOf m)
    ∧ tomlHeaderPathsAt 1 (toml_format_impl m [] o)
      = (TFields.nestedNames (TMeta.fieldsOf m)).map (fun n => [n]) := by
  cases m with
  | mk nm d fs =>
    constructor
    · simp only [toml_format_impl, TMeta.fieldsOf]
      have hpass : ∀ it ∈ tomlEmitLeaves fs o, (fun it => !TomlItem.isHeader it) it = true := by
        intro it hit
        simp [tomlEmitLeaves_no_header fs o it hit]
      rw [takeWhile_append_of_all _ _ _ hpass, tomlFieldNames_append,
        tomlFieldNames_tomlEmitLeaves fs o, tomlFieldNames_takeWhile_emitNested fs [] o]
      simp
    · simp only [toml_format_impl, TMeta.fieldsOf]
      rw [tomlHeaderPathsAt_append,
        tomlHeaderPathsAt_nil_of_no_header 1 _ (tomlEmitLeaves_no_header fs o)]
      have h := toml_section_paths fs [] o
      simp only [List.length_nil, Nat.zero_add] at h
      rw [h]
      simp

/-- A struct whose declaration interleaves leaf and nested fields:
`{ a: leaf, b: nested, c: leaf }`. -/
def exMetaInterleaved : TMeta :=
  .mk "Conf" []
    (.cons (.mk "a" [] (.leaf none .optional))
      (.cons (.mk "b" [] (.nested (.mk "B" [] .nil)))
        (.cons (.mk "c" [] (.leaf none .optional)) .nil)))

/-- The default `template::FormatOptions`. -/
def exTOptions : TOptions := ⟨true, true, none, 1⟩

/-- C10: the shared template walk emits all leaf fields of a struct
before all of its nested sections, preserving declaration order within
each group, and the TOML formatter does the same (its leaf lines all
precede the first table header, and it emits one top-level `[section]`
header per nested field, in order); consequently, for a struct whose
declaration interleaves leaf and nested fields, the rendered field order
differs from declaration order. -/
theorem template_emits_leaves_first :
    (∀ (m : TMeta) (o : TOptions),
      topLevelNames (format_impl m o) 0
        = TFields.leafNames (TMeta.fieldsOf m) ++ TFields.nestedNames (TMeta.fieldsOf m))
    ∧ (∀ (m : TMeta) (o : TomlOptions),
      tomlFieldNames ((toml_format_impl m [] o).takeWhile (fun it => !it.isHeader))
        = TFields.leafNames (TMeta.fieldsOf m)
      ∧ tomlHeaderPathsAt 1 (toml_format_impl m [] o)
        = (TFields.nestedNames (TMeta.fieldsOf m)).map (fun n => [n]))
    ∧ topLevelNames (format_impl exMetaInterleaved exTOptions) 0
        ≠ TFields.declNames (TMeta.fieldsOf exMetaInterleaved) :=
  ⟨template_order_lemma, toml_order_lemma, by decide⟩
